import Mathlib

/-!
Verification of the session audio-relay pipeline of the test-socket
application: the fixed-size frame chunker, the jitter buffer, the upstream
realtime session state machine (reconnect/backoff, pending-audio replay)
and the upstream handshake message.

Bytes are modelled as natural numbers; buffers as lists of bytes.
-/

namespace Spec2Proof

/-! ### FixedSizeChunker (src/apps/test-socket/src/lib/audio/fixed-size-chunker.ts)

The chunker state is its internal accumulator `buffer`.  `_transform`
appends the incoming chunk to the accumulator and then repeatedly emits a
frame of exactly `chunkSize` bytes from the front while the accumulator
holds at least `chunkSize` bytes.  `_flush` emits the remainder when it is
non-empty.  The source loop terminates only for `chunkSize > 0`; the
embedding bounds the loop with a fuel count, and `buffer.length` iterations
always suffice because each iteration removes `chunkSize ≥ 1` bytes. -/

/-- Embeds the body of the `while (this.buffer.length >= this.chunkSize)`
loop of `_transform`, with an explicit iteration bound: returns the list of
emitted frames and the remaining accumulator. -/
def chunkLoopAux (chunkSize : Nat) : Nat → List Nat → List (List Nat) × List Nat
  | 0, buffer => ([], buffer)
  | fuel + 1, buffer =>
    if chunkSize ≤ buffer.length then
      let p := chunkLoopAux chunkSize fuel (buffer.drop chunkSize)
      (buffer.take chunkSize :: p.1, p.2)
    else
      ([], buffer)

/-- The emission loop of `_transform`, run to completion. -/
def chunkLoop (chunkSize : Nat) (buffer : List Nat) : List (List Nat) × List Nat :=
  chunkLoopAux chunkSize buffer.length buffer

/-- Embeds `FixedSizeChunker._transform`: concatenate the incoming chunk
onto the accumulator, then run the emission loop. -/
def chunkerTransform (chunkSize : Nat) (buffer chunk : List Nat) :
    List (List Nat) × List Nat :=
  chunkLoop chunkSize (buffer ++ chunk)

/-- One `_transform` call folded into an accumulated run: appends the newly
emitted frames and keeps the new accumulator. -/
def chunkerStep (chunkSize : Nat) (acc : List (List Nat) × List Nat)
    (w : List Nat) : List (List Nat) × List Nat :=
  let p := chunkerTransform chunkSize acc.2 w
  (acc.1 ++ p.1, p.2)

/-- Runs a sequence of `_transform` calls from an empty accumulator,
collecting all emitted frames in order together with the final accumulator. -/
def chunkerRun (chunkSize : Nat) (writes : List (List Nat)) :
    List (List Nat) × List Nat :=
  writes.foldl (chunkerStep chunkSize) ([], [])

/-- Embeds `FixedSizeChunker._flush`: emit the accumulator as one final
frame when it is non-empty, otherwise emit nothing. -/
def chunkerFlush (buffer : List Nat) : List (List Nat) :=
  if 0 < buffer.length then [buffer] else []

theorem chunkLoopAux_spec (chunkSize : Nat) (hc : 0 < chunkSize) :
    ∀ (fuel : Nat) (buffer : List Nat), buffer.length ≤ fuel →
      (chunkLoopAux chunkSize fuel buffer).1.flatten
          ++ (chunkLoopAux chunkSize fuel buffer).2 = buffer ∧
      (∀ f ∈ (chunkLoopAux chunkSize fuel buffer).1, f.length = chunkSize) ∧
      (chunkLoopAux chunkSize fuel buffer).2.length < chunkSize := by
  intro fuel
  induction fuel with
  | zero =>
    intro buffer hb
    have hb0 : buffer.length = 0 := Nat.le_zero.mp hb
    refine ⟨by simp [chunkLoopAux], by simp [chunkLoopAux], ?_⟩
    simp only [chunkLoopAux]
    omega
  | succ fuel ih =>
    intro buffer hb
    by_cases h : chunkSize ≤ buffer.length
    · have hrest : (buffer.drop chunkSize).length ≤ fuel := by
        simp only [List.length_drop]; omega
      obtain ⟨h1, h2, h3⟩ := ih (buffer.drop chunkSize) hrest
      simp only [chunkLoopAux, if_pos h]
      refine ⟨?_, ?_, h3⟩
      · simp only [List.flatten_cons, List.append_assoc, h1, List.take_append_drop]
      · intro f hf
        rcases List.mem_cons.mp hf with hf | hf
        · subst hf
          simp only [List.length_take]
          omega
        · exact h2 f hf
    · refine ⟨by simp [chunkLoopAux, if_neg h], by simp [chunkLoopAux, if_neg h], ?_⟩
      simp only [chunkLoopAux, if_neg h]
      omega

theorem chunkLoop_spec (chunkSize : Nat) (hc : 0 < chunkSize) (buffer : List Nat) :
    (chunkLoop chunkSize buffer).1.flatten ++ (chunkLoop chunkSize buffer).2 = buffer ∧
    (∀ f ∈ (chunkLoop chunkSize buffer).1, f.length = chunkSize) ∧
    (chunkLoop chunkSize buffer).2.length < chunkSize :=
  chunkLoopAux_spec chunkSize hc buffer.length buffer le_rfl

theorem chunkerRun_go_join (chunkSize : Nat) (hc : 0 < chunkSize) :
    ∀ (writes : List (List Nat)) (acc : List (List Nat) × List Nat),
      (writes.foldl (chunkerStep chunkSize) acc).1.flatten
          ++ (writes.foldl (chunkerStep chunkSize) acc).2
        = acc.1.flatten ++ (acc.2 ++ writes.flatten) := by
  intro writes
  induction writes with
  | nil => intro acc; simp
  | cons w ws ih =>
    intro acc
    have hstep := (chunkLoop_spec chunkSize hc (acc.2 ++ w)).1
    have key : ∀ X : List Nat,
        (chunkLoop chunkSize (acc.2 ++ w)).1.flatten
            ++ ((chunkLoop chunkSize (acc.2 ++ w)).2 ++ X)
          = acc.2 ++ (w ++ X) := by
      intro X
      rw [← List.append_assoc, hstep, List.append_assoc]
    simp only [List.foldl_cons]
    rw [ih (chunkerStep chunkSize acc w)]
    simp only [chunkerStep, chunkerTransform, List.flatten_append, List.flatten_cons,
      List.append_assoc, key]

theorem chunkerRun_go_sizes (chunkSize : Nat) (hc : 0 < chunkSize) :
    ∀ (writes : List (List Nat)) (acc : List (List Nat) × List Nat),
      (∀ f ∈ acc.1, f.length = chunkSize) →
      (∀ f ∈ (writes.foldl (chunkerStep chunkSize) acc).1, f.length = chunkSize) ∧
      ((writes.foldl (chunkerStep chunkSize) acc).2.length < chunkSize ∨
        writes = [] ∧ (writes.foldl (chunkerStep chunkSize) acc).2 = acc.2) := by
  intro writes
  induction writes with
  | nil => intro acc h; exact ⟨h, Or.inr ⟨rfl, rfl⟩⟩
  | cons w ws ih =>
    intro acc h
    have hstep := chunkLoop_spec chunkSize hc (acc.2 ++ w)
    have hframes : ∀ f ∈ (chunkerStep chunkSize acc w).1, f.length = chunkSize := by
      intro f hf
      rcases List.mem_append.mp hf with hf | hf
      · exact h f hf
      · exact hstep.2.1 f hf
    obtain ⟨h1, h2⟩ := ih (chunkerStep chunkSize acc w) hframes
    refine ⟨h1, ?_⟩
    rcases h2 with h2 | ⟨hws, h2⟩
    · exact Or.inl h2
    · subst hws
      left
      simpa [h2] using hstep.2.2

theorem chunkerFlush_flatten (b : List Nat) : (chunkerFlush b).flatten = b := by
  cases b with
  | nil => rfl
  | cons a l => simp [chunkerFlush]

theorem chunkerFlush_mem (b f : List Nat) (hf : f ∈ chunkerFlush b) :
    f = b ∧ 0 < b.length := by
  unfold chunkerFlush at hf
  split at hf
  · next h => simp only [List.mem_singleton] at hf; exact ⟨hf, h⟩
  · simp at hf

/-- C5: for every finite sequence of write calls to a `FixedSizeChunker`
(with a positive chunk size, which the write loop needs in order to
terminate) followed by one flush, the ordered concatenation of all emitted
frames, including the flush remainder frame if any, equals the ordered
concatenation of all written inputs: no bytes are lost, duplicated or
reordered. -/
theorem c5_chunker_round_trip (chunkSize : Nat) (hc : 0 < chunkSize)
    (writes : List (List Nat)) :
    ((chunkerRun chunkSize writes).1
        ++ chunkerFlush (chunkerRun chunkSize writes).2).flatten
      = writes.flatten := by
  have h := chunkerRun_go_join chunkSize hc writes ([], [])
  simp only [chunkerRun, List.flatten_append, chunkerFlush_flatten]
  simpa using h

theorem c5_witness :
    (0 : Nat) < 2 ∧
      ((chunkerRun 2 [[1, 2, 3], [4]]).1
          ++ chunkerFlush (chunkerRun 2 [[1, 2, 3], [4]]).2).flatten
        = [[1, 2, 3], [4]].flatten :=
  ⟨by decide, c5_chunker_round_trip 2 (by decide) [[1, 2, 3], [4]]⟩

/-- C6: for every sequence of writes to a `FixedSizeChunker` with
`chunkSize > 0`, every frame emitted before flush has exactly `chunkSize`
bytes, and the frame emitted by flush, if one is emitted, has size strictly
between `0` and `chunkSize`; a zero-byte remainder emits nothing. -/
theorem c6_chunker_sizing (chunkSize : Nat) (hc : 0 < chunkSize)
    (writes : List (List Nat)) :
    (∀ f ∈ (chunkerRun chunkSize writes).1, f.length = chunkSize) ∧
    (∀ f ∈ chunkerFlush (chunkerRun chunkSize writes).2,
        0 < f.length ∧ f.length < chunkSize) ∧
    ((chunkerRun chunkSize writes).2 = [] →
        chunkerFlush (chunkerRun chunkSize writes).2 = []) := by
  obtain ⟨h1, h2⟩ := chunkerRun_go_sizes chunkSize hc writes ([], []) (by simp)
  refine ⟨h1, ?_, ?_⟩
  · intro f hf
    obtain ⟨hfb, hpos⟩ := chunkerFlush_mem _ f hf
    subst hfb
    refine ⟨hpos, ?_⟩
    rcases h2 with h2 | ⟨hws, hbuf⟩
    · exact h2
    · have hnil : (chunkerRun chunkSize writes).2 = [] := hbuf
      rw [hnil] at hpos
      simp at hpos
  · intro hnil
    simp [chunkerFlush, hnil]

theorem c6_witness :
    (0 : Nat) < 2 ∧
      ((∀ f ∈ (chunkerRun 2 [[1, 2, 3]]).1, f.length = 2) ∧
        (∀ f ∈ chunkerFlush (chunkerRun 2 [[1, 2, 3]]).2,
            0 < f.length ∧ f.length < 2) ∧
        ((chunkerRun 2 [[1, 2, 3]]).2 = [] →
            chunkerFlush (chunkerRun 2 [[1, 2, 3]]).2 = [])) :=
  ⟨by decide, c6_chunker_sizing 2 (by decide) [[1, 2, 3]]⟩

/-! ### OpenAiRtcSessionImpl (src/apps/test-socket/src/services/openai-rtc.service.ts)

The upstream session is modelled as a state machine.  Audio chunks are
identified by natural numbers (only identity and order matter).  The fields
mirror the private fields of `OpenAiRtcSessionImpl`: `closed`, `ready`,
`retryCount`, the presence of a retry timer and of a handler, and the
`pendingAudio` queue.  Three further fields record the externally
observable effects: `upstreamSent` logs every chunk passed to
`handler.sendAudioChunk`, `errors` logs every payload emitted on the
session's `error` event, and `delaysSinceReady` logs the backoff delays
passed to `setTimeout` since the last successful Ready transition
(`retryCount = 0` reset).

A `connect` model event stands for one completed `connect()` call whose
`await handler.connectToAudioStream()` resolved (`true`) or rejected
(`false`); `errorEvent` and `socketClosed` stand for the handler's `error`
and `close` events as processed by `attachHandlers`. -/

/-- Error payloads emitted on the session's `error` event: either a
forwarded upstream error or the terminal retry-limit error created in
`scheduleReconnect`. -/
inductive RtcErr where
  | upstreamError : RtcErr
  | retryLimit : RtcErr
deriving DecidableEq

/-- The two options of `OpenAiRtcSessionOptions` that drive reconnect
behaviour; `maxRetries` defaults to 3 and `baseRetryDelayMs` to 500 at the
use sites. -/
structure RtcConfig where
  maxRetries : Nat
  baseRetryDelayMs : Nat
deriving DecidableEq

/-- The mutable state of `OpenAiRtcSessionImpl`, plus effect logs. -/
structure RtcState where
  closed : Bool
  ready : Bool
  handlerExists : Bool
  retryCount : Nat
  retryTimer : Bool
  pendingAudio : List Nat
  upstreamSent : List Nat
  errors : List RtcErr
  delaysSinceReady : List Nat
deriving DecidableEq

/-- The field initialisers of `OpenAiRtcSessionImpl`. -/
def initRtc : RtcState :=
  { closed := false, ready := false, handlerExists := false, retryCount := 0,
    retryTimer := false, pendingAudio := [], upstreamSent := [], errors := [],
    delaysSinceReady := [] }

/-- Embeds `OpenAiRtcSessionImpl.scheduleReconnect`: a no-op when closed;
past the retry limit it only emits the terminal error; otherwise it logs
the exponential-backoff delay, increments the retry count and arms the
retry timer. -/
def scheduleReconnect (cfg : RtcConfig) (s : RtcState) : RtcState :=
  if s.closed then s
  else if cfg.maxRetries ≤ s.retryCount then
    { s with errors := s.errors ++ [RtcErr.retryLimit] }
  else
    { s with retryCount := s.retryCount + 1,
             retryTimer := true,
             delaysSinceReady :=
               s.delaysSinceReady ++ [cfg.baseRetryDelayMs * 2 ^ s.retryCount] }

/-- Embeds `OpenAiRtcSessionImpl.flushPendingAudio`: when a handler exists,
the session is ready and the queue is non-empty, forward the whole queue in
order and clear it. -/
def flushPendingAudio (s : RtcState) : RtcState :=
  if s.handlerExists && s.ready && !s.pendingAudio.isEmpty then
    { s with upstreamSent := s.upstreamSent ++ s.pendingAudio, pendingAudio := [] }
  else s

/-- Embeds `OpenAiRtcSessionImpl.connect` as one atomic call whose
`connectToAudioStream` outcome is `ok`: returns immediately when closed;
otherwise clears the retry timer, drops readiness, installs a fresh
handler, and on success resets the retry count, becomes ready and flushes
the pending audio, while on failure it schedules a reconnect. -/
def connectRtc (cfg : RtcConfig) (ok : Bool) (s : RtcState) : RtcState :=
  if s.closed then s
  else
    let s1 := { s with retryTimer := false, ready := false, handlerExists := true }
    if ok then
      flushPendingAudio
        { s1 with retryCount := 0, ready := true, delaysSinceReady := [] }
    else
      scheduleReconnect cfg s1

/-- Embeds `OpenAiRtcSessionImpl.sendAudioChunk`: dropped when closed,
queued while not ready (or before any handler exists), forwarded upstream
otherwise. -/
def sendAudioChunkRtc (c : Nat) (s : RtcState) : RtcState :=
  if s.closed then s
  else if !s.ready || !s.handlerExists then
    { s with pendingAudio := s.pendingAudio ++ [c] }
  else
    { s with upstreamSent := s.upstreamSent ++ [c] }

/-- Embeds `OpenAiRtcSessionImpl.close`: marks the session closed and
clears any pending retry timer. -/
def closeRtc (s : RtcState) : RtcState :=
  { s with closed := true, retryTimer := false }

/-- Embeds the handler `error` listener installed by `attachHandlers`:
re-emit the error upward, then schedule a reconnect. -/
def onHandlerError (cfg : RtcConfig) (s : RtcState) : RtcState :=
  scheduleReconnect cfg { s with errors := s.errors ++ [RtcErr.upstreamError] }

/-- Embeds the handler `close` listener installed by `attachHandlers`:
schedule a reconnect unless the session was explicitly closed. -/
def onHandlerClose (cfg : RtcConfig) (s : RtcState) : RtcState :=
  if s.closed then s else scheduleReconnect cfg s

/-- External stimuli of the session state machine. -/
inductive RtcEvent where
  | connect : Bool → RtcEvent
  | send : Nat → RtcEvent
  | close : RtcEvent
  | errorEvent : RtcEvent
  | socketClosed : RtcEvent
deriving DecidableEq

/-- One step of the session state machine. -/
def rstep (cfg : RtcConfig) (s : RtcState) : RtcEvent → RtcState
  | RtcEvent.connect ok => connectRtc cfg ok s
  | RtcEvent.send c => sendAudioChunkRtc c s
  | RtcEvent.close => closeRtc s
  | RtcEvent.errorEvent => onHandlerError cfg s
  | RtcEvent.socketClosed => onHandlerClose cfg s

/-- Runs the session state machine from an arbitrary state. -/
def rrunFrom (cfg : RtcConfig) (s : RtcState) (evs : List RtcEvent) : RtcState :=
  evs.foldl (rstep cfg) s

/-- Runs the session state machine from the initial state. -/
def rrun (cfg : RtcConfig) (evs : List RtcEvent) : RtcState :=
  rrunFrom cfg initRtc evs

/-- The chunks passed to `sendAudioChunk` over a trace, in call order. -/
def audioWrites (evs : List RtcEvent) : List Nat :=
  evs.filterMap fun e =>
    match e with
    | RtcEvent.send c => some c
    | _ => none

/-- Decides that a trace contains no explicit `close()` call. -/
def noClose (evs : List RtcEvent) : Bool :=
  evs.all fun e => e ≠ RtcEvent.close

theorem scheduleReconnect_fields (cfg : RtcConfig) (s : RtcState) :
    (scheduleReconnect cfg s).closed = s.closed ∧
    (scheduleReconnect cfg s).ready = s.ready ∧
    (scheduleReconnect cfg s).handlerExists = s.handlerExists ∧
    (scheduleReconnect cfg s).pendingAudio = s.pendingAudio ∧
    (scheduleReconnect cfg s).upstreamSent = s.upstreamSent := by
  unfold scheduleReconnect
  split
  · exact ⟨rfl, rfl, rfl, rfl, rfl⟩
  · split
    · exact ⟨rfl, rfl, rfl, rfl, rfl⟩
    · exact ⟨rfl, rfl, rfl, rfl, rfl⟩

theorem connectRtc_true (cfg : RtcConfig) (s : RtcState) (hc : s.closed = false) :
    connectRtc cfg true s =
      { s with retryTimer := false, handlerExists := true, retryCount := 0,
               ready := true, delaysSinceReady := [],
               upstreamSent := s.upstreamSent ++ s.pendingAudio,
               pendingAudio := [] } := by
  cases hp : s.pendingAudio with
  | nil => simp [connectRtc, flushPendingAudio, hc, hp]
  | cons a l => simp [connectRtc, flushPendingAudio, hc, hp]

theorem connectRtc_false (cfg : RtcConfig) (s : RtcState) (hc : s.closed = false) :
    connectRtc cfg false s =
      scheduleReconnect cfg
        { s with retryTimer := false, ready := false, handlerExists := true } := by
  simp [connectRtc, hc]

theorem sendAudioChunkRtc_queues (c : Nat) (s : RtcState) (hc : s.closed = false)
    (hr : s.ready = false) :
    sendAudioChunkRtc c s = { s with pendingAudio := s.pendingAudio ++ [c] } := by
  simp [sendAudioChunkRtc, hc, hr]

theorem sendAudioChunkRtc_forwards (c : Nat) (s : RtcState) (hc : s.closed = false)
    (hr : s.ready = true) (hh : s.handlerExists = true) :
    sendAudioChunkRtc c s = { s with upstreamSent := s.upstreamSent ++ [c] } := by
  simp [sendAudioChunkRtc, hc, hr, hh]

/-- Joint invariant for traces without an explicit close: the session stays
unclosed, readiness implies an empty queue, a ready session has a handler,
and the chunks forwarded upstream followed by the still-queued chunks are
exactly the chunks handed to `sendAudioChunk`, in order. -/
theorem rtc_conservation (cfg : RtcConfig) :
    ∀ (evs : List RtcEvent) (s : RtcState), noClose evs = true →
      s.closed = false → (s.ready = true → s.pendingAudio = []) →
      (s.ready = true → s.handlerExists = true) →
      (rrunFrom cfg s evs).closed = false ∧
      ((rrunFrom cfg s evs).ready = true → (rrunFrom cfg s evs).pendingAudio = []) ∧
      ((rrunFrom cfg s evs).ready = true → (rrunFrom cfg s evs).handlerExists = true) ∧
      (rrunFrom cfg s evs).upstreamSent ++ (rrunFrom cfg s evs).pendingAudio
        = s.upstreamSent ++ (s.pendingAudio ++ audioWrites evs) := by
  intro evs
  induction evs with
  | nil =>
    intro s _ hc hr hh
    exact ⟨hc, hr, hh, by simp [rrunFrom, audioWrites]⟩
  | cons e es ih =>
    intro s h hc hr hh
    have hcons : (e ≠ RtcEvent.close) ∧ noClose es = true := by
      simpa [noClose] using h
    obtain ⟨he, hes⟩ := hcons
    have hstep : (rstep cfg s e).closed = false ∧
        ((rstep cfg s e).ready = true → (rstep cfg s e).pendingAudio = []) ∧
        ((rstep cfg s e).ready = true → (rstep cfg s e).handlerExists = true) ∧
        (rstep cfg s e).upstreamSent ++ (rstep cfg s e).pendingAudio
          = s.upstreamSent ++ (s.pendingAudio ++ audioWrites [e]) := by
      cases e with
      | connect ok =>
        cases ok with
        | false =>
          rw [show rstep cfg s (RtcEvent.connect false) = connectRtc cfg false s from rfl,
            connectRtc_false cfg s hc]
          obtain ⟨f1, f2, f3, f4, f5⟩ := scheduleReconnect_fields cfg
            { s with retryTimer := false, ready := false, handlerExists := true }
          refine ⟨f1.trans hc, ?_, ?_, ?_⟩
          · intro hrd; rw [f2] at hrd; exact absurd hrd (by simp)
          · intro hrd; rw [f2] at hrd; exact absurd hrd (by simp)
          · rw [f4, f5]; simp [audioWrites]
        | true =>
          rw [show rstep cfg s (RtcEvent.connect true) = connectRtc cfg true s from rfl,
            connectRtc_true cfg s hc]
          refine ⟨hc, fun _ => rfl, fun _ => rfl, ?_⟩
          simp [audioWrites]
      | send c =>
        cases hrd : s.ready with
        | false =>
          rw [show rstep cfg s (RtcEvent.send c) = sendAudioChunkRtc c s from rfl,
            sendAudioChunkRtc_queues c s hc hrd]
          refine ⟨hc, ?_, ?_, ?_⟩
          · intro hq
            exact absurd (show s.ready = true from hq) (by rw [hrd]; simp)
          · intro hq
            exact absurd (show s.ready = true from hq) (by rw [hrd]; simp)
          · simp [audioWrites]
        | true =>
          have hp := hr hrd
          have hhe := hh hrd
          rw [show rstep cfg s (RtcEvent.send c) = sendAudioChunkRtc c s from rfl,
            sendAudioChunkRtc_forwards c s hc hrd hhe]
          refine ⟨hc, fun _ => hp, fun _ => hhe, ?_⟩
          simp [audioWrites, hp]
      | close => exact absurd rfl he
      | errorEvent =>
        rw [show rstep cfg s RtcEvent.errorEvent = onHandlerError cfg s from rfl]
        unfold onHandlerError
        obtain ⟨f1, f2, f3, f4, f5⟩ := scheduleReconnect_fields cfg
          { s with errors := s.errors ++ [RtcErr.upstreamError] }
        refine ⟨f1.trans hc, ?_, ?_, ?_⟩
        · intro hq; rw [f2] at hq; rw [f4]; exact hr hq
        · intro hq; rw [f2] at hq; rw [f3]; exact hh hq
        · rw [f4, f5]; simp [audioWrites]
      | socketClosed =>
        rw [show rstep cfg s RtcEvent.socketClosed = onHandlerClose cfg s from rfl]
        unfold onHandlerClose
        rw [if_neg (by simp [hc])]
        obtain ⟨f1, f2, f3, f4, f5⟩ := scheduleReconnect_fields cfg s
        refine ⟨f1.trans hc, ?_, ?_, ?_⟩
        · intro hq; rw [f2] at hq; rw [f4]; exact hr hq
        · intro hq; rw [f2] at hq; rw [f3]; exact hh hq
        · rw [f4, f5]; simp [audioWrites]
    obtain ⟨k1, k2, k3, k4⟩ := ih (rstep cfg s e) hes hstep.1 hstep.2.1 hstep.2.2.1
    refine ⟨k1, k2, k3, ?_⟩
    have hsplit : audioWrites (e :: es) = audioWrites [e] ++ audioWrites es := by
      simp only [audioWrites, ← List.filterMap_append, List.singleton_append]
    rw [show rrunFrom cfg s (e :: es) = rrunFrom cfg (rstep cfg s e) es from rfl, k4,
      ← List.append_assoc, hstep.2.2.2, hsplit]
    simp [List.append_assoc]

/-- C1: for the upstream session, every audio chunk passed to
`sendAudioChunk` while the session is neither ready nor explicitly closed
is appended to the pending-audio queue; a successful transition to Ready
forwards all queued chunks upstream exactly once, in original write order,
and leaves the queue empty; and over any trace without an explicit close
the chunks forwarded upstream followed by the chunks still queued are
exactly the chunks written, in order, so no chunk is dropped while
reconnecting. -/
theorem c1_pending_audio_replay (cfg : RtcConfig) (evs : List RtcEvent)
    (h : noClose evs = true) :
    ((rrun cfg evs).upstreamSent ++ (rrun cfg evs).pendingAudio = audioWrites evs) ∧
    (∀ (c : Nat) (s : RtcState), s.closed = false → s.ready = false →
        rstep cfg s (RtcEvent.send c)
          = { s with pendingAudio := s.pendingAudio ++ [c] }) ∧
    (∀ s : RtcState, s.closed = false →
        (rstep cfg s (RtcEvent.connect true)).upstreamSent
            = s.upstreamSent ++ s.pendingAudio ∧
        (rstep cfg s (RtcEvent.connect true)).pendingAudio = [] ∧
        (rstep cfg s (RtcEvent.connect true)).ready = true) := by
  refine ⟨?_, ?_, ?_⟩
  · have := (rtc_conservation cfg evs initRtc h rfl (by intro hx; simp [initRtc] at hx)
      (by intro hx; simp [initRtc] at hx)).2.2.2
    simpa [rrun, initRtc] using this
  · intro c s hc hr
    exact sendAudioChunkRtc_queues c s hc hr
  · intro s hc
    rw [show rstep cfg s (RtcEvent.connect true) = connectRtc cfg true s from rfl,
      connectRtc_true cfg s hc]
    exact ⟨rfl, rfl, rfl⟩

theorem c1_witness :
    noClose [RtcEvent.send 0, RtcEvent.send 1, RtcEvent.connect true,
        RtcEvent.send 2] = true ∧
      ((rrun ⟨3, 500⟩ [RtcEvent.send 0, RtcEvent.send 1, RtcEvent.connect true,
            RtcEvent.send 2]).upstreamSent
          ++ (rrun ⟨3, 500⟩ [RtcEvent.send 0, RtcEvent.send 1, RtcEvent.connect true,
            RtcEvent.send 2]).pendingAudio
        = audioWrites [RtcEvent.send 0, RtcEvent.send 1, RtcEvent.connect true,
            RtcEvent.send 2]) :=
  ⟨by decide,
    (c1_pending_audio_replay ⟨3, 500⟩
      [RtcEvent.send 0, RtcEvent.send 1, RtcEvent.connect true, RtcEvent.send 2]
      (by decide)).1⟩

/-- Backoff invariant: the delays handed to `setTimeout` since the last
successful Ready transition are exactly `base·2^0, base·2^1, …` up to the
current retry count. -/
theorem rtc_backoff_inv (cfg : RtcConfig) :
    ∀ (evs : List RtcEvent) (s : RtcState),
      s.delaysSinceReady
          = (List.range s.retryCount).map (fun k => cfg.baseRetryDelayMs * 2 ^ k) →
      (rrunFrom cfg s evs).delaysSinceReady
        = (List.range (rrunFrom cfg s evs).retryCount).map
            (fun k => cfg.baseRetryDelayMs * 2 ^ k) := by
  intro evs
  induction evs with
  | nil => intro s hs; exact hs
  | cons e es ih =>
    intro s hs
    have hstep : (rstep cfg s e).delaysSinceReady
        = (List.range (rstep cfg s e).retryCount).map
            (fun k => cfg.baseRetryDelayMs * 2 ^ k) := by
      have hsched : ∀ t : RtcState,
          t.delaysSinceReady
              = (List.range t.retryCount).map (fun k => cfg.baseRetryDelayMs * 2 ^ k) →
          (scheduleReconnect cfg t).delaysSinceReady
            = (List.range (scheduleReconnect cfg t).retryCount).map
                (fun k => cfg.baseRetryDelayMs * 2 ^ k) := by
        intro t ht
        unfold scheduleReconnect
        split
        · exact ht
        · split
          · exact ht
          · simp only [List.range_succ, List.map_append, List.map_cons, List.map_nil]
            rw [← ht]
      cases e with
      | connect ok =>
        cases hcl : s.closed with
        | true =>
          rw [show rstep cfg s (RtcEvent.connect ok) = connectRtc cfg ok s from rfl]
          unfold connectRtc
          rw [if_pos (by simp [hcl])]
          exact hs
        | false =>
          cases ok with
          | true => rw [show rstep cfg s (RtcEvent.connect true) = connectRtc cfg true s
              from rfl, connectRtc_true cfg s hcl]; rfl
          | false =>
            rw [show rstep cfg s (RtcEvent.connect false) = connectRtc cfg false s
              from rfl, connectRtc_false cfg s hcl]
            exact hsched _ hs
      | send c =>
        rw [show rstep cfg s (RtcEvent.send c) = sendAudioChunkRtc c s from rfl]
        unfold sendAudioChunkRtc
        split
        · exact hs
        · split
          · exact hs
          · exact hs
      | close => exact hs
      | errorEvent =>
        rw [show rstep cfg s RtcEvent.errorEvent = onHandlerError cfg s from rfl]
        unfold onHandlerError
        exact hsched _ hs
      | socketClosed =>
        rw [show rstep cfg s RtcEvent.socketClosed = onHandlerClose cfg s from rfl]
        unfold onHandlerClose
        split
        · exact hs
        · exact hsched _ hs
    exact ih (rstep cfg s e) hstep

/-- C2: with `baseRetryDelayMs = 500`, the backoff delay scheduled before
the n-th consecutive retry attempt since the last successful Ready
transition (n starting at 1, so retry count n-1 at scheduling time) is
`500·2^(n-1)` milliseconds, and every successful transition to Ready resets
the retry count to 0. -/
theorem c2_backoff_schedule (maxRetries : Nat) (evs : List RtcEvent) :
    ((rrun ⟨maxRetries, 500⟩ evs).delaysSinceReady
        = (List.range (rrun ⟨maxRetries, 500⟩ evs).retryCount).map
            (fun k => 500 * 2 ^ k)) ∧
    (∀ s : RtcState, s.closed = false →
        (rstep ⟨maxRetries, 500⟩ s (RtcEvent.connect true)).retryCount = 0) := by
  constructor
  · exact rtc_backoff_inv ⟨maxRetries, 500⟩ evs initRtc rfl
  · intro s hc
    rw [show rstep ⟨maxRetries, 500⟩ s (RtcEvent.connect true)
        = connectRtc ⟨maxRetries, 500⟩ true s from rfl,
      connectRtc_true ⟨maxRetries, 500⟩ s hc]

theorem c2_witness :
    ((rrun ⟨3, 500⟩ [RtcEvent.connect false, RtcEvent.connect false,
          RtcEvent.connect false]).delaysSinceReady
        = (List.range (rrun ⟨3, 500⟩ [RtcEvent.connect false, RtcEvent.connect false,
            RtcEvent.connect false]).retryCount).map (fun k => 500 * 2 ^ k)) ∧
      (rrun ⟨3, 500⟩ [RtcEvent.connect false, RtcEvent.connect false,
          RtcEvent.connect false]).delaysSinceReady = [500, 1000, 2000] ∧
      initRtc.closed = false ∧
      (rstep ⟨3, 500⟩ initRtc (RtcEvent.connect true)).retryCount = 0 :=
  ⟨(c2_backoff_schedule 3 [RtcEvent.connect false, RtcEvent.connect false,
      RtcEvent.connect false]).1,
    by decide, rfl,
    (c2_backoff_schedule 3 []).2 initRtc rfl⟩

/-- Configuration used by the retry-limit counterexample: the default
`maxRetries = 3` and `baseRetryDelayMs = 500`. -/
def c3Config : RtcConfig := ⟨3, 500⟩

/-- Four failed connect attempts exhaust the retry budget, then one more
upstream error event arrives. -/
def c3Trace : List RtcEvent :=
  [RtcEvent.connect false, RtcEvent.connect false, RtcEvent.connect false,
   RtcEvent.connect false, RtcEvent.errorEvent]

/-- C3 counterexample: after the retry count reaches `maxRetries` with no
intervening Ready transition, the terminal retry-limit error is emitted
again on every further reconnect trigger: on this trace it is raised twice,
not exactly once. -/
theorem c3_counterexample :
    (rrun c3Config c3Trace).errors.count RtcErr.retryLimit = 2 ∧
      ¬ (rrun c3Config c3Trace).errors.count RtcErr.retryLimit = 1 := by
  constructor
  · decide
  · decide

/-- C3 amended: once the retry count has reached `maxRetries` without an
intervening successful Ready transition, no further reconnect is scheduled
(the retry timer is never newly armed, the retry count and backoff log stay
unchanged), and the terminal retry-limit error is raised once per further
reconnect trigger (failed connect, upstream error event, or unexpected
socket close) — not exactly once over the session's remaining lifetime. -/
theorem c3_retry_limit_behaviour (cfg : RtcConfig) (s : RtcState)
    (hc : s.closed = false) (hmax : cfg.maxRetries ≤ s.retryCount) :
    rstep cfg s RtcEvent.errorEvent
        = { s with errors := s.errors ++ [RtcErr.upstreamError, RtcErr.retryLimit] } ∧
    rstep cfg s RtcEvent.socketClosed
        = { s with errors := s.errors ++ [RtcErr.retryLimit] } ∧
    rstep cfg s (RtcEvent.connect false)
        = { s with retryTimer := false, ready := false, handlerExists := true,
                   errors := s.errors ++ [RtcErr.retryLimit] } := by
  refine ⟨?_, ?_, ?_⟩
  · rw [show rstep cfg s RtcEvent.errorEvent = onHandlerError cfg s from rfl]
    unfold onHandlerError scheduleReconnect
    rw [if_neg (by simp [hc]), if_pos (by simpa using hmax)]
    simp
  · rw [show rstep cfg s RtcEvent.socketClosed = onHandlerClose cfg s from rfl]
    unfold onHandlerClose scheduleReconnect
    rw [if_neg (by simp [hc]), if_neg (by simp [hc]), if_pos (by simpa using hmax)]
  · rw [show rstep cfg s (RtcEvent.connect false) = connectRtc cfg false s from rfl,
      connectRtc_false cfg s hc]
    unfold scheduleReconnect
    rw [if_neg (by simp [hc]), if_pos (by simpa using hmax)]

theorem c3_witness :
    (rrun c3Config (List.take 4 c3Trace)).closed = false ∧
      c3Config.maxRetries ≤ (rrun c3Config (List.take 4 c3Trace)).retryCount ∧
      rstep c3Config (rrun c3Config (List.take 4 c3Trace)) RtcEvent.errorEvent
        = { rrun c3Config (List.take 4 c3Trace) with
            errors := (rrun c3Config (List.take 4 c3Trace)).errors
              ++ [RtcErr.upstreamError, RtcErr.retryLimit] } :=
  ⟨by decide, by decide,
    (c3_retry_limit_behaviour c3Config (rrun c3Config (List.take 4 c3Trace))
      (by decide) (by decide)).1⟩

/-- C9: once `close()` has been called, the closed state is absorbing:
whatever events follow, the session stays closed, the retry timer is never
armed again, the pending-audio queue and the upstream send log never change
(so queued chunks are never sent upstream), and any further `connect()` or
`sendAudioChunk()` call leaves the state exactly as it was. -/
theorem c9_close_absorbing (cfg : RtcConfig) (s0 : RtcState) (evs : List RtcEvent) :
    (rrunFrom cfg (closeRtc s0) evs).closed = true ∧
    (rrunFrom cfg (closeRtc s0) evs).retryTimer = false ∧
    (rrunFrom cfg (closeRtc s0) evs).pendingAudio = s0.pendingAudio ∧
    (rrunFrom cfg (closeRtc s0) evs).upstreamSent = s0.upstreamSent ∧
    (∀ ok : Bool, rstep cfg (rrunFrom cfg (closeRtc s0) evs) (RtcEvent.connect ok)
        = rrunFrom cfg (closeRtc s0) evs) ∧
    (∀ c : Nat, rstep cfg (rrunFrom cfg (closeRtc s0) evs) (RtcEvent.send c)
        = rrunFrom cfg (closeRtc s0) evs) := by
  have key : ∀ (l : List RtcEvent) (t : RtcState), t.closed = true →
      t.retryTimer = false →
      (rrunFrom cfg t l).closed = true ∧
      (rrunFrom cfg t l).retryTimer = false ∧
      (rrunFrom cfg t l).pendingAudio = t.pendingAudio ∧
      (rrunFrom cfg t l).upstreamSent = t.upstreamSent := by
    intro l
    induction l with
    | nil => intro t h1 h2; exact ⟨h1, h2, rfl, rfl⟩
    | cons e es ih =>
      intro t h1 h2
      have hstep : (rstep cfg t e).closed = true ∧
          (rstep cfg t e).retryTimer = false ∧
          (rstep cfg t e).pendingAudio = t.pendingAudio ∧
          (rstep cfg t e).upstreamSent = t.upstreamSent := by
        cases e with
        | connect ok =>
          rw [show rstep cfg t (RtcEvent.connect ok) = connectRtc cfg ok t from rfl]
          unfold connectRtc
          rw [if_pos (by simp [h1])]
          exact ⟨h1, h2, rfl, rfl⟩
        | send c =>
          rw [show rstep cfg t (RtcEvent.send c) = sendAudioChunkRtc c t from rfl]
          unfold sendAudioChunkRtc
          rw [if_pos (by simp [h1])]
          exact ⟨h1, h2, rfl, rfl⟩
        | close => exact ⟨rfl, rfl, rfl, rfl⟩
        | errorEvent =>
          rw [show rstep cfg t RtcEvent.errorEvent = onHandlerError cfg t from rfl]
          unfold onHandlerError scheduleReconnect
          rw [if_pos (by simp [h1])]
          exact ⟨h1, h2, rfl, rfl⟩
        | socketClosed =>
          rw [show rstep cfg t RtcEvent.socketClosed = onHandlerClose cfg t from rfl]
          unfold onHandlerClose
          rw [if_pos (by simp [h1])]
          exact ⟨h1, h2, rfl, rfl⟩
      obtain ⟨k1, k2, k3, k4⟩ := ih (rstep cfg t e) hstep.1 hstep.2.1
      exact ⟨k1, k2, k3.trans hstep.2.2.1, k4.trans hstep.2.2.2⟩
  obtain ⟨k1, k2, k3, k4⟩ := key evs (closeRtc s0) rfl rfl
  refine ⟨k1, k2, k3, k4, ?_, ?_⟩
  · intro ok
    rw [show rstep cfg (rrunFrom cfg (closeRtc s0) evs) (RtcEvent.connect ok)
        = connectRtc cfg ok (rrunFrom cfg (closeRtc s0) evs) from rfl]
    unfold connectRtc
    rw [if_pos (by simp [k1])]
  · intro c
    rw [show rstep cfg (rrunFrom cfg (closeRtc s0) evs) (RtcEvent.send c)
        = sendAudioChunkRtc c (rrunFrom cfg (closeRtc s0) evs) from rfl]
    unfold sendAudioChunkRtc
    rw [if_pos (by simp [k1])]

/-! ### Session handshake (src/apps/test-socket/src/app/helper/OpenAISocketHandler.ts)

`OpenAIRealtimeSocketHandler` stores a merged copy of the options it is
constructed with (`DEFAULT_OPTIONS` overridden by the caller's options) and,
once the socket opens, sends the `session.update` handshake built by
`sendSessionCreate`.  That message is a literal object in the source: it
does not read `this.options` at all.  The `server_vad` threshold `0.5` is
recorded in thousandths to stay inside the naturals. -/

/-- The options accepted by the handler's constructor
(`RealtimeSessionOptions` in the source, all fields optional). -/
structure RealtimeSessionOptions where
  model : Option String
  voice : Option String
  instructions : Option String
  inputSampleRate : Option Nat
  outputSampleRate : Option Nat
deriving DecidableEq

/-- The handler's stored options after merging with `DEFAULT_OPTIONS`
(`instructions` has no default and stays optional). -/
structure ResolvedOptions where
  model : String
  voice : String
  instructions : Option String
  inputSampleRate : Nat
  outputSampleRate : Nat
deriving DecidableEq

/-- The German simultaneous-translation instructions: the same literal
appears as `DEFAULT_INSTRUCTIONS` in openai-rtc.service.ts and inside the
handshake object in `sendSessionCreate`. -/
def DEFAULT_INSTRUCTIONS : String :=
  "Du bist ein Simultanübersetzer. Übersetze fortlaufend von Deutsch nach Englisch. Antworte ausschließlich mit der Übersetzung, keine Kommentare."

/-- Embeds the option merge in the handler's constructor, using
`DEFAULT_OPTIONS` for absent fields. -/
def mergeOptions (opts : RealtimeSessionOptions) : ResolvedOptions :=
  { model := opts.model.getD "gpt-4o-realtime-preview",
    voice := opts.voice.getD "alloy",
    instructions := opts.instructions,
    inputSampleRate := opts.inputSampleRate.getD 16000,
    outputSampleRate := opts.outputSampleRate.getD 16000 }

/-- The shape of the `session.update` handshake message. -/
structure SessionUpdateMsg where
  msgType : String
  sessionType : String
  model : String
  instructions : String
  inputFormatType : String
  inputRate : Nat
  turnDetectionType : String
  turnThresholdThousandths : Nat
  prePaddingMs : Nat
  silenceDurationMs : Nat
  voice : String
deriving DecidableEq

/-- Embeds `sendSessionCreate`: the handshake event is built entirely from
literal constants; the handler's stored options are not consulted. -/
def sessionCreateEvent (_opts : ResolvedOptions) : SessionUpdateMsg :=
  { msgType := "session.update", sessionType := "realtime",
    model := "gpt-realtime",
    instructions := DEFAULT_INSTRUCTIONS,
    inputFormatType := "audio/pcm", inputRate := 24000,
    turnDetectionType := "server_vad", turnThresholdThousandths := 500,
    prePaddingMs := 200, silenceDurationMs := 250, voice := "marin" }

/-- The session options of `OpenAiRtcHandler` construction
(`OpenAiRtcSessionOptions` in openai-rtc.service.ts). -/
structure OpenAiRtcSessionOptions where
  model : Option String
  voice : Option String
  inputSampleRate : Option Nat
  outputSampleRate : Option Nat
  instructions : Option String
  maxRetries : Option Nat
  baseRetryDelayMs : Option Nat
deriving DecidableEq

/-- Embeds the handler construction inside `OpenAiRtcSessionImpl.connect`:
sample rates default to 24000 and instructions to `DEFAULT_INSTRUCTIONS`
before being handed to the handler. -/
def rtcHandlerOptions (o : OpenAiRtcSessionOptions) : RealtimeSessionOptions :=
  { model := o.model, voice := o.voice,
    inputSampleRate := some (o.inputSampleRate.getD 24000),
    outputSampleRate := some (o.outputSampleRate.getD 24000),
    instructions := some (o.instructions.getD DEFAULT_INSTRUCTIONS) }

/-- A session configuration with a non-default voice, instructions and
sample rate, used to refute C4. -/
def c4Options : OpenAiRtcSessionOptions :=
  { model := some "gpt-4o-realtime-preview", voice := some "echo",
    inputSampleRate := some 16000, outputSampleRate := some 16000,
    instructions := some "Translate from English to French.",
    maxRetries := none, baseRetryDelayMs := none }

/-- C4 counterexample: the handshake sent on connect does not carry the
session configuration's voice, instructions or input sample rate — for a
configuration asking for voice `echo`, French-translation instructions and
16000 Hz input, the message still says voice `marin`, the fixed German
instructions and 24000 Hz. -/
theorem c4_counterexample :
    (sessionCreateEvent (mergeOptions (rtcHandlerOptions c4Options))).voice = "marin" ∧
    (mergeOptions (rtcHandlerOptions c4Options)).voice = "echo" ∧
    ¬ (sessionCreateEvent (mergeOptions (rtcHandlerOptions c4Options))).voice
        = (mergeOptions (rtcHandlerOptions c4Options)).voice ∧
    (sessionCreateEvent (mergeOptions (rtcHandlerOptions c4Options))).inputRate = 24000 ∧
    (mergeOptions (rtcHandlerOptions c4Options)).inputSampleRate = 16000 ∧
    ¬ (sessionCreateEvent (mergeOptions (rtcHandlerOptions c4Options))).instructions
        = "Translate from English to French." := by
  refine ⟨rfl, rfl, by decide, rfl, rfl, by decide⟩

/-- C4 amended: `connect()` on success sends a handshake message that is
the same fixed literal for every session configuration — `session.update`
with model `gpt-realtime`, the fixed German translator instructions, input
format `audio/pcm` at 24000 Hz, `server_vad` turn detection (threshold 0.5,
prefix padding 200 ms, silence duration 250 ms) and voice `marin` — and
then transitions the session to Ready; on failure, with retry budget
remaining, it schedules a reconnect. -/
theorem c4_handshake_fixed (o : OpenAiRtcSessionOptions) (cfg : RtcConfig)
    (s : RtcState) (hc : s.closed = false) :
    sessionCreateEvent (mergeOptions (rtcHandlerOptions o))
        = { msgType := "session.update", sessionType := "realtime",
            model := "gpt-realtime", instructions := DEFAULT_INSTRUCTIONS,
            inputFormatType := "audio/pcm", inputRate := 24000,
            turnDetectionType := "server_vad", turnThresholdThousandths := 500,
            prePaddingMs := 200, silenceDurationMs := 250, voice := "marin" } ∧
    (rstep cfg s (RtcEvent.connect true)).ready = true ∧
    (s.retryCount < cfg.maxRetries →
        (rstep cfg s (RtcEvent.connect false)).retryTimer = true) := by
  refine ⟨rfl, ?_, ?_⟩
  · rw [show rstep cfg s (RtcEvent.connect true) = connectRtc cfg true s from rfl,
      connectRtc_true cfg s hc]
  · intro hlt
    rw [show rstep cfg s (RtcEvent.connect false) = connectRtc cfg false s from rfl,
      connectRtc_false cfg s hc]
    unfold scheduleReconnect
    rw [if_neg (by simp [hc]), if_neg (by simpa using Nat.not_le.mpr hlt)]

theorem c4_witness :
    initRtc.closed = false ∧ initRtc.retryCount < (3 : Nat) ∧
      (rstep ⟨3, 500⟩ initRtc (RtcEvent.connect false)).retryTimer = true :=
  ⟨rfl, by decide,
    (c4_handshake_fixed c4Options ⟨3, 500⟩ initRtc rfl).2.2 (by decide)⟩

/-! ### JitterBuffer (src/apps/test-socket/src/lib/audio/jitter-buffer.ts)

Frames are identified by the natural-number index of the write that
produced them; a queue entry pairs that index with the frame's `receivedAt`
timestamp.  `emitted` logs the indices emitted on the `data` event and
`dropped` those emitted on the `drop` event, in order.  The interval timer
is a boolean: `start` arms it if absent, `stop` clears it, and a `tick`
event (one firing of the `setInterval` callback) flushes only while the
timer is armed.  Each timed operation takes the value `Date.now()` returned
at its start; traces are constrained to non-decreasing times, as a
monotone clock guarantees. -/

/-- The three latency options of the jitter buffer (defaults 40/200/10). -/
structure JitterConfig where
  targetLatencyMs : Nat
  maxLatencyMs : Nat
  flushIntervalMs : Nat
deriving DecidableEq

/-- State of the jitter buffer plus the logs of its `data` and `drop`
emissions. -/
structure JitterState where
  queue : List (Nat × Nat)
  emitted : List Nat
  dropped : List Nat
  timer : Bool
deriving DecidableEq

/-- The field initialisers of `JitterBuffer`. -/
def initJitter : JitterState :=
  { queue := [], emitted := [], dropped := [], timer := false }

/-- Embeds `JitterBuffer.start`: a no-op while the timer exists, otherwise
arms it. -/
def startJ (s : JitterState) : JitterState :=
  if s.timer then s else { s with timer := true }

/-- Embeds `JitterBuffer.stop`: a no-op while no timer exists, otherwise
clears it. -/
def stopJ (s : JitterState) : JitterState :=
  if s.timer then { s with timer := false } else s

/-- Embeds the `while` loop of `JitterBuffer.flush`: splits the queue into
the prefix popped and emitted as data and the remaining suffix.  Without
`force`, the loop breaks at the first frame younger than the target
latency. -/
def flushSplit (target : Nat) (force : Bool) (now : Nat) :
    List (Nat × Nat) → List (Nat × Nat) × List (Nat × Nat)
  | [] => ([], [])
  | item :: rest =>
    if !force && now - item.2 < target then ([], item :: rest)
    else
      let p := flushSplit target force now rest
      (item :: p.1, p.2)

/-- Embeds the `while` loop of `JitterBuffer.trim`: splits the queue into
the prefix of frames older than the maximum latency, popped and reported as
dropped, and the remaining suffix. -/
def trimSplit (maxLatency : Nat) (now : Nat) :
    List (Nat × Nat) → List (Nat × Nat) × List (Nat × Nat)
  | [] => ([], [])
  | item :: rest =>
    if maxLatency < now - item.2 then
      let p := trimSplit maxLatency now rest
      (item :: p.1, p.2)
    else ([], item :: rest)

/-- Embeds `JitterBuffer.write`: push the frame with its arrival time, then
trim. -/
def writeJ (cfg : JitterConfig) (idx now : Nat) (s : JitterState) : JitterState :=
  let t := trimSplit cfg.maxLatencyMs now (s.queue ++ [(idx, now)])
  { s with queue := t.2, dropped := s.dropped ++ t.1.map Prod.fst }

/-- Embeds `JitterBuffer.flush`. -/
def flushJ (cfg : JitterConfig) (force : Bool) (now : Nat) (s : JitterState) :
    JitterState :=
  let p := flushSplit cfg.targetLatencyMs force now s.queue
  { s with queue := p.2, emitted := s.emitted ++ p.1.map Prod.fst }

/-- One firing of the `setInterval` callback: `flush()` with no force, and
only possible while the timer is armed. -/
def tickJ (cfg : JitterConfig) (now : Nat) (s : JitterState) : JitterState :=
  if s.timer then flushJ cfg false now s else s

/-- Embeds `JitterBuffer.end`: force-flush everything, then stop. -/
def endJ (cfg : JitterConfig) (now : Nat) (s : JitterState) : JitterState :=
  stopJ (flushJ cfg true now s)

/-- External stimuli of the jitter buffer. -/
inductive JEvent where
  | start : JEvent
  | stop : JEvent
  | write : Nat → Nat → JEvent
  | tick : Nat → JEvent
  | endEv : Nat → JEvent
deriving DecidableEq

/-- One step of the jitter-buffer state machine. -/
def jstep (cfg : JitterConfig) (s : JitterState) : JEvent → JitterState
  | JEvent.start => startJ s
  | JEvent.stop => stopJ s
  | JEvent.write idx now => writeJ cfg idx now s
  | JEvent.tick now => tickJ cfg now s
  | JEvent.endEv now => endJ cfg now s

/-- Runs the jitter buffer from an arbitrary state. -/
def jrunFrom (cfg : JitterConfig) (s : JitterState) (evs : List JEvent) :
    JitterState :=
  evs.foldl (jstep cfg) s

/-- Runs the jitter buffer from the initial state. -/
def jrun (cfg : JitterConfig) (evs : List JEvent) : JitterState :=
  jrunFrom cfg initJitter evs

/-- The `Date.now()` value observed by a timed event. -/
def eventTime : JEvent → Option Nat
  | JEvent.write _ now => some now
  | JEvent.tick now => some now
  | JEvent.endEv now => some now
  | JEvent.start => none
  | JEvent.stop => none

/-- Decides that the timed events of a trace carry non-decreasing times,
all at or above the lower bound. -/
def timesMonoB : Nat → List JEvent → Bool
  | _, [] => true
  | lb, e :: rest =>
    match eventTime e with
    | none => timesMonoB lb rest
    | some t => decide (lb ≤ t) && timesMonoB t rest

/-- The indices of the frames written over a trace, in write order. -/
def writtenIdx (evs : List JEvent) : List Nat :=
  evs.filterMap fun e =>
    match e with
    | JEvent.write idx _ => some idx
    | _ => none

/-- Decides that a trace contains no `end()` call. -/
def noEndB (evs : List JEvent) : Bool :=
  evs.all fun e =>
    match e with
    | JEvent.endEv _ => false
    | _ => true

/-- C10: `JitterBuffer.start` and `stop` are idempotent: starting while the
tick timer runs is a no-op (at most one timer ever exists) and stopping
while none runs is a no-op, so start;start behaves as start and stop;stop
as stop. -/
theorem c10_start_stop_idempotent (s : JitterState) :
    startJ (startJ s) = startJ s ∧ stopJ (stopJ s) = stopJ s ∧
    (s.timer = true → startJ s = s) ∧ (s.timer = false → stopJ s = s) := by
  cases ht : s.timer <;> refine ⟨?_, ?_, ?_, ?_⟩ <;> simp [startJ, stopJ, ht]

theorem c10_witness :
    startJ (startJ initJitter) = startJ initJitter ∧ stopJ initJitter = initJitter :=
  ⟨(c10_start_stop_idempotent initJitter).1,
    (c10_start_stop_idempotent initJitter).2.2.2 rfl⟩

/-- The release condition of `flush` without force: the frame has aged at
least the target latency. -/
def flushReady (target now : Nat) (x : Nat × Nat) : Bool :=
  decide (target ≤ now - x.2)

/-- The discard condition of `trim`: the frame has aged beyond the maximum
latency. -/
def overAge (maxLatency now : Nat) (x : Nat × Nat) : Bool :=
  decide (maxLatency < now - x.2)

theorem flushSplit_false_eq (target now : Nat) :
    ∀ q, flushSplit target false now q
      = (q.takeWhile (flushReady target now), q.dropWhile (flushReady target now)) := by
  intro q
  induction q with
  | nil => rfl
  | cons item rest ih =>
    by_cases h : now - item.2 < target
    · have hp : flushReady target now item = false := by
        simp only [flushReady, decide_eq_false_iff_not]
        omega
      simp [flushSplit, h, hp, List.takeWhile_cons, List.dropWhile_cons]
    · have hp : flushReady target now item = true := by
        simp only [flushReady, decide_eq_true_eq]
        omega
      simp [flushSplit, h, hp, List.takeWhile_cons, List.dropWhile_cons, ih]

theorem flushSplit_force_eq (target now : Nat) :
    ∀ q, flushSplit target true now q = (q, []) := by
  intro q
  induction q with
  | nil => rfl
  | cons item rest ih => simp [flushSplit, ih]

theorem trimSplit_eq (maxLatency now : Nat) :
    ∀ q, trimSplit maxLatency now q
      = (q.takeWhile (overAge maxLatency now), q.dropWhile (overAge maxLatency now)) := by
  intro q
  induction q with
  | nil => rfl
  | cons item rest ih =>
    by_cases h : maxLatency < now - item.2
    · have hp : overAge maxLatency now item = true := by
        simp only [overAge, decide_eq_true_eq]
        omega
      simp [trimSplit, h, hp, List.takeWhile_cons, List.dropWhile_cons, ih]
    · have hp : overAge maxLatency now item = false := by
        simp only [overAge, decide_eq_false_iff_not]
        omega
      simp [trimSplit, h, hp, List.takeWhile_cons, List.dropWhile_cons]

/-- An element of a list that fails the predicate survives `dropWhile`. -/
theorem mem_dropWhile_keep {α : Type} (p : α → Bool) (l : List α) (x : α)
    (hx : x ∈ l) (hp : p x = false) : x ∈ l.dropWhile p := by
  have hsplit : l.takeWhile p ++ l.dropWhile p = l :=
    List.takeWhile_append_dropWhile p l
  rw [← hsplit] at hx
  rcases List.mem_append.mp hx with hx | hx
  · have := List.mem_takeWhile_imp hx
    rw [hp] at this
    exact absurd this (by simp)
  · exact hx

/-- In a queue sorted by arrival time, an element satisfying a condition
that is downward closed in arrival time lies in the `takeWhile` prefix for
that condition. -/
theorem mem_takeWhile_mono (p : Nat × Nat → Bool)
    (hmono : ∀ a b : Nat × Nat, a.2 ≤ b.2 → p b = true → p a = true) :
    ∀ l : List (Nat × Nat), l.Pairwise (fun a b => a.2 ≤ b.2) →
      ∀ x ∈ l, p x = true → x ∈ l.takeWhile p := by
  intro l
  induction l with
  | nil => simp
  | cons h tl ih =>
    intro hs x hx hpx
    rcases List.mem_cons.mp hx with rfl | hx
    · rw [List.takeWhile_cons, if_pos hpx]
      exact List.mem_cons_self _ _
    · have hph : p h = true :=
        hmono h x ((List.pairwise_cons.mp hs).1 x hx) hpx
      rw [List.takeWhile_cons, if_pos hph]
      exact List.mem_cons_of_mem h (ih (List.pairwise_cons.mp hs).2 x hx hpx)

theorem startJ_proj (s : JitterState) :
    (startJ s).queue = s.queue ∧ (startJ s).emitted = s.emitted ∧
    (startJ s).dropped = s.dropped := by
  unfold startJ
  split <;> exact ⟨rfl, rfl, rfl⟩

theorem stopJ_proj (s : JitterState) :
    (stopJ s).queue = s.queue ∧ (stopJ s).emitted = s.emitted ∧
    (stopJ s).dropped = s.dropped := by
  unfold stopJ
  split <;> exact ⟨rfl, rfl, rfl⟩

theorem writeJ_proj (cfg : JitterConfig) (idx now : Nat) (s : JitterState) :
    (writeJ cfg idx now s).queue
        = (s.queue ++ [(idx, now)]).dropWhile (overAge cfg.maxLatencyMs now) ∧
    (writeJ cfg idx now s).dropped
        = s.dropped
          ++ ((s.queue ++ [(idx, now)]).takeWhile (overAge cfg.maxLatencyMs now)).map
              Prod.fst ∧
    (writeJ cfg idx now s).emitted = s.emitted := by
  unfold writeJ
  rw [trimSplit_eq]
  exact ⟨rfl, rfl, rfl⟩

theorem flushJ_false (cfg : JitterConfig) (now : Nat) (s : JitterState) :
    flushJ cfg false now s
      = { s with
          queue := s.queue.dropWhile (flushReady cfg.targetLatencyMs now),
          emitted := s.emitted
            ++ (s.queue.takeWhile (flushReady cfg.targetLatencyMs now)).map Prod.fst } := by
  unfold flushJ
  rw [flushSplit_false_eq]

theorem flushJ_force (cfg : JitterConfig) (now : Nat) (s : JitterState) :
    flushJ cfg true now s
      = { s with queue := [], emitted := s.emitted ++ s.queue.map Prod.fst } := by
  unfold flushJ
  rw [flushSplit_force_eq]

theorem jrunFrom_append (cfg : JitterConfig) (s : JitterState) (l1 l2 : List JEvent) :
    jrunFrom cfg s (l1 ++ l2) = jrunFrom cfg (jrunFrom cfg s l1) l2 := by
  simp [jrunFrom, List.foldl_append]

theorem jstep_emitted_mono (cfg : JitterConfig) (s : JitterState) (e : JEvent) :
    ∃ l, (jstep cfg s e).emitted = s.emitted ++ l := by
  cases e with
  | start => exact ⟨[], by rw [show jstep cfg s JEvent.start = startJ s from rfl,
      (startJ_proj s).2.1, List.append_nil]⟩
  | stop => exact ⟨[], by rw [show jstep cfg s JEvent.stop = stopJ s from rfl,
      (stopJ_proj s).2.1, List.append_nil]⟩
  | write idx now => exact ⟨[], by
      rw [show jstep cfg s (JEvent.write idx now) = writeJ cfg idx now s from rfl,
        (writeJ_proj cfg idx now s).2.2, List.append_nil]⟩
  | tick now =>
    rw [show jstep cfg s (JEvent.tick now) = tickJ cfg now s from rfl]
    unfold tickJ
    split
    · rw [flushJ_false]
      exact ⟨_, rfl⟩
    · exact ⟨[], by rw [List.append_nil]⟩
  | endEv now =>
    rw [show jstep cfg s (JEvent.endEv now) = endJ cfg now s from rfl]
    unfold endJ
    rw [(stopJ_proj _).2.1, flushJ_force]
    exact ⟨_, rfl⟩

theorem jstep_dropped_mono (cfg : JitterConfig) (s : JitterState) (e : JEvent) :
    ∃ l, (jstep cfg s e).dropped = s.dropped ++ l := by
  cases e with
  | start => exact ⟨[], by rw [show jstep cfg s JEvent.start = startJ s from rfl,
      (startJ_proj s).2.2, List.append_nil]⟩
  | stop => exact ⟨[], by rw [show jstep cfg s JEvent.stop = stopJ s from rfl,
      (stopJ_proj s).2.2, List.append_nil]⟩
  | write idx now => exact ⟨_, by
      rw [show jstep cfg s (JEvent.write idx now) = writeJ cfg idx now s from rfl,
        (writeJ_proj cfg idx now s).2.1]⟩
  | tick now =>
    rw [show jstep cfg s (JEvent.tick now) = tickJ cfg now s from rfl]
    unfold tickJ
    split
    · rw [flushJ_false]
      exact ⟨[], by rw [List.append_nil]⟩
    · exact ⟨[], by rw [List.append_nil]⟩
  | endEv now =>
    rw [show jstep cfg s (JEvent.endEv now) = endJ cfg now s from rfl]
    unfold endJ
    rw [(stopJ_proj _).2.2, flushJ_force]
    exact ⟨[], by rw [List.append_nil]⟩

theorem jrunFrom_emitted_mono (cfg : JitterConfig) :
    ∀ (evs : List JEvent) (s : JitterState),
      ∃ l, (jrunFrom cfg s evs).emitted = s.emitted ++ l := by
  intro evs
  induction evs with
  | nil => intro s; exact ⟨[], by simp [jrunFrom]⟩
  | cons e es ih =>
    intro s
    obtain ⟨l1, h1⟩ := jstep_emitted_mono cfg s e
    obtain ⟨l2, h2⟩ := ih (jstep cfg s e)
    exact ⟨l1 ++ l2, by
      rw [show jrunFrom cfg s (e :: es) = jrunFrom cfg (jstep cfg s e) es from rfl,
        h2, h1, List.append_assoc]⟩

theorem jrunFrom_dropped_mono (cfg : JitterConfig) :
    ∀ (evs : List JEvent) (s : JitterState),
      ∃ l, (jrunFrom cfg s evs).dropped = s.dropped ++ l := by
  intro evs
  induction evs with
  | nil => intro s; exact ⟨[], by simp [jrunFrom]⟩
  | cons e es ih =>
    intro s
    obtain ⟨l1, h1⟩ := jstep_dropped_mono cfg s e
    obtain ⟨l2, h2⟩ := ih (jstep cfg s e)
    exact ⟨l1 ++ l2, by
      rw [show jrunFrom cfg s (e :: es) = jrunFrom cfg (jstep cfg s e) es from rfl,
        h2, h1, List.append_assoc]⟩

theorem jrunFrom_emitted_subset (cfg : JitterConfig) (evs : List JEvent)
    (s : JitterState) (i : Nat) (hi : i ∈ s.emitted) :
    i ∈ (jrunFrom cfg s evs).emitted := by
  obtain ⟨l, h⟩ := jrunFrom_emitted_mono cfg evs s
  rw [h]
  exact List.mem_append_left l hi

theorem jrunFrom_dropped_subset (cfg : JitterConfig) (evs : List JEvent)
    (s : JitterState) (i : Nat) (hi : i ∈ s.dropped) :
    i ∈ (jrunFrom cfg s evs).dropped := by
  obtain ⟨l, h⟩ := jrunFrom_dropped_mono cfg evs s
  rw [h]
  exact List.mem_append_left l hi

/-- A frame newly reported as dropped was dropped by the trim of a write:
the event was a write at some time `now`, the frame was in the queue with
arrival time `t`, and its age exceeded the maximum latency. -/
theorem jstep_dropped_new (cfg : JitterConfig) (s : JitterState) (e : JEvent)
    (i : Nat) (hi : i ∈ (jstep cfg s e).dropped) (hni : i ∉ s.dropped) :
    ∃ j now t, e = JEvent.write j now ∧ (i, t) ∈ s.queue ∧
      cfg.maxLatencyMs < now - t := by
  cases e with
  | start =>
    rw [show jstep cfg s JEvent.start = startJ s from rfl, (startJ_proj s).2.2] at hi
    exact absurd hi hni
  | stop =>
    rw [show jstep cfg s JEvent.stop = stopJ s from rfl, (stopJ_proj s).2.2] at hi
    exact absurd hi hni
  | tick now =>
    rw [show jstep cfg s (JEvent.tick now) = tickJ cfg now s from rfl] at hi
    unfold tickJ at hi
    split at hi
    · rw [flushJ_false] at hi
      exact absurd hi hni
    · exact absurd hi hni
  | endEv now =>
    rw [show jstep cfg s (JEvent.endEv now) = endJ cfg now s from rfl] at hi
    unfold endJ at hi
    rw [(stopJ_proj _).2.2, flushJ_force] at hi
    exact absurd hi hni
  | write j now =>
    rw [show jstep cfg s (JEvent.write j now) = writeJ cfg j now s from rfl,
      (writeJ_proj cfg j now s).2.1] at hi
    rcases List.mem_append.mp hi with hi | hi
    · exact absurd hi hni
    · obtain ⟨x, hx, hfst⟩ := List.mem_map.mp hi
      obtain ⟨x1, x2⟩ := x
      have hpred := List.mem_takeWhile_imp hx
      have hage : cfg.maxLatencyMs < now - x2 := by
        simpa [overAge] using hpred
      have hxq : (x1, x2) ∈ s.queue ++ [(j, now)] :=
        (List.takeWhile_sublist _).mem hx
      rcases List.mem_append.mp hxq with hq | hq
      · subst hfst
        exact ⟨j, now, x2, rfl, hq, hage⟩
      · have hx2 : x2 = now := by
          simp only [List.mem_singleton, Prod.mk.injEq] at hq
          exact hq.2
        rw [hx2] at hage
        omega

/-- A frame newly reported as emitted was released either by a tick of the
armed timer, with the frame aged at least the target latency, or by a
forced flush from `end()`. -/
theorem jstep_emitted_new (cfg : JitterConfig) (s : JitterState) (e : JEvent)
    (i : Nat) (hi : i ∈ (jstep cfg s e).emitted) (hni : i ∉ s.emitted) :
    (∃ now r, e = JEvent.tick now ∧ s.timer = true ∧ (i, r) ∈ s.queue ∧
      cfg.targetLatencyMs ≤ now - r) ∨
    (∃ now, e = JEvent.endEv now) := by
  cases e with
  | start =>
    rw [show jstep cfg s JEvent.start = startJ s from rfl, (startJ_proj s).2.1] at hi
    exact absurd hi hni
  | stop =>
    rw [show jstep cfg s JEvent.stop = stopJ s from rfl, (stopJ_proj s).2.1] at hi
    exact absurd hi hni
  | write j now =>
    rw [show jstep cfg s (JEvent.write j now) = writeJ cfg j now s from rfl,
      (writeJ_proj cfg j now s).2.2] at hi
    exact absurd hi hni
  | endEv now => exact Or.inr ⟨now, rfl⟩
  | tick now =>
    rw [show jstep cfg s (JEvent.tick now) = tickJ cfg now s from rfl] at hi
    unfold tickJ at hi
    split at hi
    · next htimer =>
      rw [flushJ_false] at hi
      rcases List.mem_append.mp hi with hi | hi
      · exact absurd hi hni
      · obtain ⟨x, hx, hfst⟩ := List.mem_map.mp hi
        obtain ⟨x1, x2⟩ := x
        have hpred := List.mem_takeWhile_imp hx
        have hage : cfg.targetLatencyMs ≤ now - x2 := by
          simpa [flushReady] using hpred
        have hxq : (x1, x2) ∈ s.queue := (List.takeWhile_sublist _).mem hx
        subst hfst
        exact Or.inl ⟨now, x2, rfl, htimer, hxq, hage⟩
    · exact absurd hi hni

/-- A queued frame either stays queued, is emitted, or is dropped by one
step. -/
theorem jstep_queue_keep (cfg : JitterConfig) (s : JitterState) (e : JEvent)
    (i r : Nat) (hq : (i, r) ∈ s.queue) :
    (i, r) ∈ (jstep cfg s e).queue ∨ i ∈ (jstep cfg s e).emitted ∨
      i ∈ (jstep cfg s e).dropped := by
  cases e with
  | start =>
    rw [show jstep cfg s JEvent.start = startJ s from rfl]
    rw [(startJ_proj s).1]
    exact Or.inl hq
  | stop =>
    rw [show jstep cfg s JEvent.stop = stopJ s from rfl]
    rw [(stopJ_proj s).1]
    exact Or.inl hq
  | write j now =>
    rw [show jstep cfg s (JEvent.write j now) = writeJ cfg j now s from rfl]
    rw [(writeJ_proj cfg j now s).1]
    have hq1 : (i, r) ∈ s.queue ++ [(j, now)] := List.mem_append_left _ hq
    rw [← List.takeWhile_append_dropWhile (overAge cfg.maxLatencyMs now)
      (s.queue ++ [(j, now)])] at hq1
    rcases List.mem_append.mp hq1 with h | h
    · right; right
      rw [(writeJ_proj cfg j now s).2.1]
      exact List.mem_append_right _ (List.mem_map.mpr ⟨(i, r), h, rfl⟩)
    · exact Or.inl h
  | tick now =>
    rw [show jstep cfg s (JEvent.tick now) = tickJ cfg now s from rfl]
    unfold tickJ
    split
    · rw [flushJ_false]
      have hq1 : (i, r) ∈ s.queue := hq
      rw [← List.takeWhile_append_dropWhile (flushReady cfg.targetLatencyMs now)
        s.queue] at hq1
      rcases List.mem_append.mp hq1 with h | h
      · right; left
        exact List.mem_append_right _ (List.mem_map.mpr ⟨(i, r), h, rfl⟩)
      · exact Or.inl h
    · exact Or.inl hq
  | endEv now =>
    rw [show jstep cfg s (JEvent.endEv now) = endJ cfg now s from rfl]
    unfold endJ
    right; left
    rw [(stopJ_proj _).2.1, flushJ_force]
    exact List.mem_append_right _ (List.mem_map.mpr ⟨(i, r), hq, rfl⟩)

/-- Queue entries originate in writes: each carries the index and time of
the write that pushed it. -/
theorem jstep_queue_origin (cfg : JitterConfig) (s : JitterState) (e : JEvent)
    (x : Nat × Nat) (hx : x ∈ (jstep cfg s e).queue) :
    x ∈ s.queue ∨ e = JEvent.write x.1 x.2 := by
  cases e with
  | start =>
    rw [show jstep cfg s JEvent.start = startJ s from rfl, (startJ_proj s).1] at hx
    exact Or.inl hx
  | stop =>
    rw [show jstep cfg s JEvent.stop = stopJ s from rfl, (stopJ_proj s).1] at hx
    exact Or.inl hx
  | write j now =>
    rw [show jstep cfg s (JEvent.write j now) = writeJ cfg j now s from rfl,
      (writeJ_proj cfg j now s).1] at hx
    have hx1 : x ∈ s.queue ++ [(j, now)] := (List.dropWhile_sublist _).mem hx
    rcases List.mem_append.mp hx1 with h | h
    · exact Or.inl h
    · right
      obtain ⟨x1, x2⟩ := x
      simp only [List.mem_singleton, Prod.mk.injEq] at h
      rw [h.1, h.2]
  | tick now =>
    rw [show jstep cfg s (JEvent.tick now) = tickJ cfg now s from rfl] at hx
    unfold tickJ at hx
    split at hx
    · rw [flushJ_false] at hx
      exact Or.inl ((List.dropWhile_sublist _).mem hx)
    · exact Or.inl hx
  | endEv now =>
    rw [show jstep cfg s (JEvent.endEv now) = endJ cfg now s from rfl] at hx
    unfold endJ at hx
    rw [(stopJ_proj _).1, flushJ_force] at hx
    exact absurd hx (by simp)

/-- The queue is sorted by arrival time (oldest at the head). -/
def qSorted (q : List (Nat × Nat)) : Prop :=
  q.Pairwise fun a b => a.2 ≤ b.2

/-- All arrival times in the queue are at most the given clock value. -/
def qBounded (lb : Nat) (q : List (Nat × Nat)) : Prop :=
  ∀ x ∈ q, x.2 ≤ lb

/-- The clock value after a trace: the time of its last timed event, or the
lower bound if there is none. -/
def lastTime (lb : Nat) : List JEvent → Nat
  | [] => lb
  | e :: rest => lastTime ((eventTime e).getD lb) rest

theorem timesMonoB_cons (lb : Nat) (e : JEvent) (rest : List JEvent) :
    timesMonoB lb (e :: rest) = true ↔
      (∀ t, eventTime e = some t → lb ≤ t) ∧
        timesMonoB ((eventTime e).getD lb) rest = true := by
  cases he : eventTime e <;> simp [timesMonoB, he]

theorem timesMonoB_append (lb : Nat) (l1 l2 : List JEvent) :
    timesMonoB lb (l1 ++ l2) = true ↔
      timesMonoB lb l1 = true ∧ timesMonoB (lastTime lb l1) l2 = true := by
  induction l1 generalizing lb with
  | nil => simp [timesMonoB, lastTime]
  | cons e es ih =>
    cases he : eventTime e with
    | none => simp [timesMonoB, he, lastTime, ih]
    | some t =>
      simp only [List.cons_append, timesMonoB, he, Bool.and_eq_true, lastTime,
        Option.getD_some, List.append_eq]
      rw [ih t, and_assoc]

theorem lastTime_ge (lb : Nat) (evs : List JEvent)
    (hm : timesMonoB lb evs = true) : lb ≤ lastTime lb evs := by
  induction evs generalizing lb with
  | nil => exact le_rfl
  | cons e es ih =>
    cases he : eventTime e with
    | none =>
      rw [timesMonoB, he] at hm
      simpa [lastTime, he] using ih lb hm
    | some t =>
      rw [timesMonoB, he, Bool.and_eq_true, decide_eq_true_eq] at hm
      have := ih t hm.2
      simp only [lastTime, he, Option.getD_some]
      omega

theorem time_le_lastTime (lb : Nat) (evs : List JEvent) (e : JEvent) (τ : Nat)
    (hm : timesMonoB lb evs = true) (he : e ∈ evs) (ht : eventTime e = some τ) :
    τ ≤ lastTime lb evs := by
  induction evs generalizing lb with
  | nil => exact absurd he (List.not_mem_nil e)
  | cons f fs ih =>
    rcases List.mem_cons.mp he with rfl | hmem
    · rw [timesMonoB, ht, Bool.and_eq_true] at hm
      simp only [lastTime, ht, Option.getD_some]
      exact lastTime_ge τ fs hm.2
    · cases hf : eventTime f with
      | none =>
        rw [timesMonoB, hf] at hm
        simpa [lastTime, hf] using ih lb hm hmem
      | some t =>
        rw [timesMonoB, hf, Bool.and_eq_true] at hm
        simp only [lastTime, hf, Option.getD_some]
        exact ih t hm.2 hmem

theorem time_ge_lb (lb : Nat) (evs : List JEvent) (e : JEvent) (τ : Nat)
    (hm : timesMonoB lb evs = true) (he : e ∈ evs) (ht : eventTime e = some τ) :
    lb ≤ τ := by
  induction evs generalizing lb with
  | nil => exact absurd he (List.not_mem_nil e)
  | cons f fs ih =>
    rcases List.mem_cons.mp he with rfl | hmem
    · rw [timesMonoB, ht, Bool.and_eq_true, decide_eq_true_eq] at hm
      exact hm.1
    · cases hf : eventTime f with
      | none =>
        rw [timesMonoB, hf] at hm
        exact ih lb hm hmem
      | some t =>
        rw [timesMonoB, hf, Bool.and_eq_true, decide_eq_true_eq] at hm
        exact le_trans hm.1 (ih t hm.2 hmem)

/-- One step preserves a sorted queue and keeps all arrival times at or
below the advancing clock. -/
theorem jstep_good (cfg : JitterConfig) (s : JitterState) (e : JEvent) (lb : Nat)
    (hs : qSorted s.queue) (hb : qBounded lb s.queue)
    (hle : ∀ t, eventTime e = some t → lb ≤ t) :
    qSorted (jstep cfg s e).queue ∧
      qBounded ((eventTime e).getD lb) (jstep cfg s e).queue := by
  cases e with
  | start =>
    rw [show jstep cfg s JEvent.start = startJ s from rfl]
    rw [(startJ_proj s).1]
    exact ⟨hs, hb⟩
  | stop =>
    rw [show jstep cfg s JEvent.stop = stopJ s from rfl]
    rw [(stopJ_proj s).1]
    exact ⟨hs, hb⟩
  | write j now =>
    have hnow : lb ≤ now := hle now rfl
    rw [show jstep cfg s (JEvent.write j now) = writeJ cfg j now s from rfl]
    rw [(writeJ_proj cfg j now s).1]
    have hq1s : qSorted (s.queue ++ [(j, now)]) := by
      rw [qSorted, List.pairwise_append]
      refine ⟨hs, List.pairwise_singleton _ _, ?_⟩
      intro a ha b hb2
      simp only [List.mem_singleton] at hb2
      rw [hb2]
      exact le_trans (hb a ha) hnow
    have hq1b : qBounded now (s.queue ++ [(j, now)]) := by
      intro x hx
      rcases List.mem_append.mp hx with hx | hx
      · exact le_trans (hb x hx) hnow
      · simp only [List.mem_singleton] at hx
        rw [hx]
    constructor
    · exact List.Pairwise.sublist (List.dropWhile_sublist _) hq1s
    · intro x hx
      exact hq1b x ((List.dropWhile_sublist _).mem hx)
  | tick now =>
    have hnow : lb ≤ now := hle now rfl
    rw [show jstep cfg s (JEvent.tick now) = tickJ cfg now s from rfl]
    unfold tickJ
    split
    · rw [flushJ_false]
      constructor
      · exact List.Pairwise.sublist (List.dropWhile_sublist _) hs
      · intro x hx
        exact le_trans (hb x ((List.dropWhile_sublist _).mem hx)) hnow
    · exact ⟨hs, fun x hx => le_trans (hb x hx) hnow⟩
  | endEv now =>
    have hnow : lb ≤ now := hle now rfl
    rw [show jstep cfg s (JEvent.endEv now) = endJ cfg now s from rfl]
    unfold endJ
    rw [(stopJ_proj _).1, flushJ_force]
    exact ⟨List.Pairwise.nil, by intro x hx; exact absurd hx (List.not_mem_nil x)⟩

/-- Along a trace of non-decreasing times the queue stays sorted and
bounded by the final clock value. -/
theorem jrunFrom_good (cfg : JitterConfig) :
    ∀ (evs : List JEvent) (lb : Nat) (s : JitterState),
      timesMonoB lb evs = true → qSorted s.queue → qBounded lb s.queue →
      qSorted (jrunFrom cfg s evs).queue ∧
        qBounded (lastTime lb evs) (jrunFrom cfg s evs).queue := by
  intro evs
  induction evs with
  | nil => intro lb s _ hs hb; exact ⟨hs, hb⟩
  | cons e es ih =>
    intro lb s hm hs hb
    obtain ⟨hle, hrest⟩ := (timesMonoB_cons lb e es).mp hm
    obtain ⟨hs1, hb1⟩ := jstep_good cfg s e lb hs hb hle
    exact ih ((eventTime e).getD lb) (jstep cfg s e) hrest hs1 hb1

/-- Every frame index held somewhere in the state: still queued, emitted,
or dropped. -/
def allIdx (s : JitterState) : List Nat :=
  s.queue.map Prod.fst ++ (s.emitted ++ s.dropped)

theorem jstep_allIdx_perm (cfg : JitterConfig) (s : JitterState) (e : JEvent) :
    (allIdx (jstep cfg s e)).Perm (allIdx s ++ writtenIdx [e]) := by
  cases e with
  | start =>
    rw [show jstep cfg s JEvent.start = startJ s from rfl]
    have h := startJ_proj s
    rw [allIdx, h.1, h.2.1, h.2.2,
      show writtenIdx [JEvent.start] = [] from rfl, List.append_nil]
    exact List.Perm.refl _
  | stop =>
    rw [show jstep cfg s JEvent.stop = stopJ s from rfl]
    have h := stopJ_proj s
    rw [allIdx, h.1, h.2.1, h.2.2,
      show writtenIdx [JEvent.stop] = [] from rfl, List.append_nil]
    exact List.Perm.refl _
  | write j now =>
    rw [show jstep cfg s (JEvent.write j now) = writeJ cfg j now s from rfl]
    have h := writeJ_proj cfg j now s
    rw [allIdx, h.1, h.2.1, h.2.2,
      show writtenIdx [JEvent.write j now] = [j] from rfl]
    have hmap : ((s.queue ++ [(j, now)]).takeWhile (overAge cfg.maxLatencyMs now)).map
          Prod.fst
        ++ ((s.queue ++ [(j, now)]).dropWhile (overAge cfg.maxLatencyMs now)).map
          Prod.fst
        = s.queue.map Prod.fst ++ [j] := by
      rw [← List.map_append, List.takeWhile_append_dropWhile, List.map_append]
      rfl
    rw [List.perm_iff_count]
    intro a
    have hcount := congrArg (List.count a) hmap
    simp only [List.count_append] at hcount ⊢
    simp only [allIdx, List.count_append]
    omega
  | tick now =>
    rw [show jstep cfg s (JEvent.tick now) = tickJ cfg now s from rfl]
    unfold tickJ
    rw [show writtenIdx [JEvent.tick now] = [] from rfl, List.append_nil]
    split
    · rw [flushJ_false]
      have hmap : (s.queue.takeWhile (flushReady cfg.targetLatencyMs now)).map Prod.fst
          ++ (s.queue.dropWhile (flushReady cfg.targetLatencyMs now)).map Prod.fst
          = s.queue.map Prod.fst := by
        rw [← List.map_append, List.takeWhile_append_dropWhile]
      rw [List.perm_iff_count]
      intro a
      have hcount := congrArg (List.count a) hmap
      simp only [List.count_append] at hcount ⊢
      simp only [allIdx, List.count_append]
      omega
    · exact List.Perm.refl _
  | endEv now =>
    rw [show jstep cfg s (JEvent.endEv now) = endJ cfg now s from rfl]
    unfold endJ
    rw [show writtenIdx [JEvent.endEv now] = [] from rfl, List.append_nil, allIdx,
      (stopJ_proj _).1, (stopJ_proj _).2.1, (stopJ_proj _).2.2, flushJ_force]
    rw [List.perm_iff_count]
    intro a
    simp only [allIdx, List.count_append]
    simp only [List.map_nil, List.count_nil]
    omega

theorem jrunFrom_allIdx_perm (cfg : JitterConfig) :
    ∀ (evs : List JEvent) (s : JitterState),
      (allIdx (jrunFrom cfg s evs)).Perm (allIdx s ++ writtenIdx evs) := by
  intro evs
  induction evs with
  | nil => intro s; simp [jrunFrom, writtenIdx]
  | cons e es ih =>
    intro s
    have hsplit : writtenIdx (e :: es) = writtenIdx [e] ++ writtenIdx es := by
      simp only [writtenIdx, ← List.filterMap_append, List.singleton_append]
    have h1 : (allIdx (jrunFrom cfg s (e :: es))).Perm
        (allIdx (jstep cfg s e) ++ writtenIdx es) := ih (jstep cfg s e)
    have h2 : (allIdx (jstep cfg s e) ++ writtenIdx es).Perm
        ((allIdx s ++ writtenIdx [e]) ++ writtenIdx es) :=
      (jstep_allIdx_perm cfg s e).append_right (writtenIdx es)
    have h3 : (allIdx s ++ writtenIdx [e]) ++ writtenIdx es
        = allIdx s ++ writtenIdx (e :: es) := by
      rw [hsplit, List.append_assoc]
    exact (h1.trans h2).trans (h3 ▸ List.Perm.refl _)

theorem jrun_allIdx_perm (cfg : JitterConfig) (evs : List JEvent) :
    (allIdx (jrun cfg evs)).Perm (writtenIdx evs) := by
  have h := jrunFrom_allIdx_perm cfg evs initJitter
  simpa [allIdx, initJitter] using h

/-- With distinct write indices, a dropped frame is never also emitted. -/
theorem jrun_dropped_not_emitted (cfg : JitterConfig) (evs : List JEvent)
    (hn : (writtenIdx evs).Nodup) (i : Nat) (hd : i ∈ (jrun cfg evs).dropped) :
    i ∉ (jrun cfg evs).emitted := by
  have hnd : (allIdx (jrun cfg evs)).Nodup :=
    (jrun_allIdx_perm cfg evs).nodup_iff.mpr hn
  rw [allIdx] at hnd
  have h2 := (List.nodup_append.mp hnd).2.1
  have hdisj := (List.nodup_append.mp h2).2.2
  exact fun he => hdisj he hd

/-- Every written frame is accounted for: still queued, emitted, or
dropped. -/
theorem jrun_written_partition (cfg : JitterConfig) (evs : List JEvent) (i : Nat)
    (hw : i ∈ writtenIdx evs) :
    (∃ r, (i, r) ∈ (jrun cfg evs).queue) ∨ i ∈ (jrun cfg evs).emitted ∨
      i ∈ (jrun cfg evs).dropped := by
  have hmem : i ∈ allIdx (jrun cfg evs) :=
    (jrun_allIdx_perm cfg evs).mem_iff.mpr hw
  rw [allIdx] at hmem
  rcases List.mem_append.mp hmem with h | h
  · obtain ⟨x, hx, hfst⟩ := List.mem_map.mp h
    obtain ⟨x1, x2⟩ := x
    subst hfst
    exact Or.inl ⟨x2, hx⟩
  · rcases List.mem_append.mp h with h | h
    · exact Or.inr (Or.inl h)
    · exact Or.inr (Or.inr h)

/-- A queued frame stays in the queue until it is emitted or dropped. -/
theorem jrunFrom_queue_keep (cfg : JitterConfig) :
    ∀ (evs : List JEvent) (s : JitterState) (i r : Nat), (i, r) ∈ s.queue →
      i ∉ (jrunFrom cfg s evs).emitted → i ∉ (jrunFrom cfg s evs).dropped →
      (i, r) ∈ (jrunFrom cfg s evs).queue := by
  intro evs
  induction evs with
  | nil => intro s i r hq _ _; exact hq
  | cons e es ih =>
    intro s i r hq hne hnd
    rcases jstep_queue_keep cfg s e i r hq with h | h | h
    · exact ih (jstep cfg s e) i r h hne hnd
    · exact absurd (jrunFrom_emitted_subset cfg es (jstep cfg s e) i h) hne
    · exact absurd (jrunFrom_dropped_subset cfg es (jstep cfg s e) i h) hnd

/-- Every queue entry of a run from the empty initial state records the
index and time of the write that pushed it. -/
theorem jrunFrom_queue_origin (cfg : JitterConfig) :
    ∀ (evs : List JEvent) (s : JitterState) (x : Nat × Nat),
      x ∈ (jrunFrom cfg s evs).queue → x ∈ s.queue ∨ JEvent.write x.1 x.2 ∈ evs := by
  intro evs
  induction evs with
  | nil => intro s x hx; exact Or.inl hx
  | cons e es ih =>
    intro s x hx
    rcases ih (jstep cfg s e) x hx with h | h
    · rcases jstep_queue_origin cfg s e x h with h2 | h2
      · exact Or.inl h2
      · exact Or.inr (by rw [← h2]; exact List.mem_cons_self e es)
    · exact Or.inr (List.mem_cons_of_mem e h)

theorem jrun_queue_origin (cfg : JitterConfig) (evs : List JEvent) (x : Nat × Nat)
    (hx : x ∈ (jrun cfg evs).queue) : JEvent.write x.1 x.2 ∈ evs := by
  rcases jrunFrom_queue_origin cfg evs initJitter x hx with h | h
  · exact absurd h (List.not_mem_nil x)
  · exact h

/-- The first step at which a frame appears in the emitted log. -/
theorem first_emit (cfg : JitterConfig) :
    ∀ (evs : List JEvent) (s : JitterState) (i : Nat), i ∉ s.emitted →
      i ∈ (jrunFrom cfg s evs).emitted →
      ∃ p e q, evs = p ++ e :: q ∧ i ∉ (jrunFrom cfg s p).emitted ∧
        i ∈ (jstep cfg (jrunFrom cfg s p) e).emitted := by
  intro evs
  induction evs with
  | nil => intro s i h0 h1; exact absurd h1 h0
  | cons e es ih =>
    intro s i h0 h1
    by_cases hstep : i ∈ (jstep cfg s e).emitted
    · exact ⟨[], e, es, rfl, h0, hstep⟩
    · obtain ⟨p, e1, q, hsplit, hp1, hp2⟩ := ih (jstep cfg s e) i hstep h1
      exact ⟨e :: p, e1, q, by rw [List.cons_append, hsplit], hp1, hp2⟩

theorem mem_writtenIdx (evs : List JEvent) (i t : Nat)
    (h : JEvent.write i t ∈ evs) : i ∈ writtenIdx evs :=
  List.mem_filterMap.mpr ⟨JEvent.write i t, h, rfl⟩

theorem writtenIdx_cons_tail (e : JEvent) (es : List JEvent)
    (h : (writtenIdx (e :: es)).Nodup) : (writtenIdx es).Nodup := by
  cases e with
  | write j u =>
    have h2 : (j :: writtenIdx es).Nodup := h
    exact (List.nodup_cons.mp h2).2
  | start => exact h
  | stop => exact h
  | tick now => exact h
  | endEv now => exact h

/-- With distinct write indices, each index determines its write time. -/
theorem writtenIdx_unique :
    ∀ (evs : List JEvent) (i t r : Nat), (writtenIdx evs).Nodup →
      JEvent.write i t ∈ evs → JEvent.write i r ∈ evs → t = r := by
  intro evs
  induction evs with
  | nil => intro i t r _ h; exact absurd h (List.not_mem_nil _)
  | cons e es ih =>
    intro i t r hn h1 h2
    rcases List.mem_cons.mp h1 with he1 | he1 <;>
      rcases List.mem_cons.mp h2 with he2 | he2
    · rw [← he1] at he2
      injection he2 with _ h3
      exact h3.symm
    · exfalso
      have hhead : (i :: writtenIdx es).Nodup := by rw [← he1] at hn; exact hn
      exact (List.nodup_cons.mp hhead).1 (mem_writtenIdx es i r he2)
    · exfalso
      have hhead : (i :: writtenIdx es).Nodup := by rw [← he2] at hn; exact hn
      exact (List.nodup_cons.mp hhead).1 (mem_writtenIdx es i t he1)
    · exact ih i t r (writtenIdx_cons_tail e es hn) he1 he2

/-- A trim check observed frame `i`: some write at time `now` happened
while `i` was still queued with arrival time `t` and age beyond the
maximum latency. -/
def trimWitness (cfg : JitterConfig) (evs : List JEvent) (i : Nat) : Prop :=
  ∃ p j now q t, evs = p ++ JEvent.write j now :: q ∧
    (i, t) ∈ (jrun cfg p).queue ∧ cfg.maxLatencyMs < now - t

theorem jrun_dropped_witness (cfg : JitterConfig) :
    ∀ (evs : List JEvent) (i : Nat), i ∈ (jrun cfg evs).dropped →
      trimWitness cfg evs i := by
  intro evs
  induction evs using List.reverseRecOn with
  | nil =>
    intro i hi
    exact absurd hi (by simp [jrun, jrunFrom, initJitter])
  | append_singleton l e ih =>
    intro i hi
    rw [jrun, jrunFrom_append] at hi
    by_cases hl : i ∈ (jrun cfg l).dropped
    · obtain ⟨p, j, now, q, t, hsplit, hq, hage⟩ := ih i hl
      refine ⟨p, j, now, q ++ [e], t, ?_, hq, hage⟩
      rw [hsplit, List.append_assoc, List.cons_append]
    · have hstep : i ∈ (jstep cfg (jrun cfg l) e).dropped := hi
      obtain ⟨j, now, t, heq, hq, hage⟩ :=
        jstep_dropped_new cfg (jrun cfg l) e i hstep hl
      exact ⟨l, j, now, [], t, by rw [heq], hq, hage⟩

theorem jrun_dropped_of_witness (cfg : JitterConfig) (evs : List JEvent)
    (hm : timesMonoB 0 evs = true) (i : Nat) (hw : trimWitness cfg evs i) :
    i ∈ (jrun cfg evs).dropped := by
  obtain ⟨p, j, now, q, t, hsplit, hq, hage⟩ := hw
  subst hsplit
  have hmp := (timesMonoB_append 0 p (JEvent.write j now :: q)).mp hm
  have hgood := jrunFrom_good cfg p 0 initJitter hmp.1 List.Pairwise.nil
    (by intro x hx; exact absurd hx (List.not_mem_nil x))
  have hs : qSorted (jrun cfg p).queue := hgood.1
  have hb : qBounded (lastTime 0 p) (jrun cfg p).queue := hgood.2
  have hnow : lastTime 0 p ≤ now :=
    ((timesMonoB_cons (lastTime 0 p) (JEvent.write j now) q).mp hmp.2).1 now rfl
  have hq1 : (i, t) ∈ (jrun cfg p).queue ++ [(j, now)] := List.mem_append_left _ hq
  have hq1s : qSorted ((jrun cfg p).queue ++ [(j, now)]) := by
    rw [qSorted, List.pairwise_append]
    refine ⟨hs, List.pairwise_singleton _ _, ?_⟩
    intro a ha b hb2
    simp only [List.mem_singleton] at hb2
    rw [hb2]
    exact le_trans (hb a ha) hnow
  have hptrue : overAge cfg.maxLatencyMs now (i, t) = true := by
    simp only [overAge, decide_eq_true_eq]
    exact hage
  have hmono : ∀ a b : Nat × Nat, a.2 ≤ b.2 →
      overAge cfg.maxLatencyMs now b = true →
      overAge cfg.maxLatencyMs now a = true := by
    intro a b hab hb2
    simp only [overAge, decide_eq_true_eq] at hb2 ⊢
    omega
  have htake : (i, t) ∈ ((jrun cfg p).queue ++ [(j, now)]).takeWhile
      (overAge cfg.maxLatencyMs now) :=
    mem_takeWhile_mono _ hmono _ hq1s _ hq1 hptrue
  have hstep : i ∈ (jstep cfg (jrun cfg p) (JEvent.write j now)).dropped := by
    rw [show jstep cfg (jrun cfg p) (JEvent.write j now)
        = writeJ cfg j now (jrun cfg p) from rfl,
      (writeJ_proj cfg j now _).2.1]
    exact List.mem_append_right _ (List.mem_map.mpr ⟨(i, t), htake, rfl⟩)
  have hrun : jrun cfg (p ++ JEvent.write j now :: q)
      = jrunFrom cfg (jstep cfg (jrun cfg p) (JEvent.write j now)) q := by
    rw [jrun, jrunFrom_append]
    rfl
  rw [hrun]
  exact jrunFrom_dropped_subset cfg q _ i hstep

/-- C7: in the jitter buffer (over any trace with a monotone clock and
distinct write indices), a frame is dropped if and only if at some trim
check — performed on every write — its age `now - receivedAt` exceeded
`maxLatencyMs` while it was still queued; and a dropped frame is never also
emitted as a data frame. -/
theorem c7_jitter_drop_bound (cfg : JitterConfig) (evs : List JEvent)
    (hm : timesMonoB 0 evs = true) (hn : (writtenIdx evs).Nodup) :
    (∀ i, i ∈ (jrun cfg evs).dropped ↔ trimWitness cfg evs i) ∧
    (∀ i ∈ (jrun cfg evs).dropped, i ∉ (jrun cfg evs).emitted) :=
  ⟨fun i => ⟨jrun_dropped_witness cfg evs i, jrun_dropped_of_witness cfg evs hm i⟩,
    fun i hd => jrun_dropped_not_emitted cfg evs hn i hd⟩

theorem c7_witness :
    timesMonoB 0 [JEvent.write 0 0, JEvent.write 1 500] = true ∧
      (writtenIdx [JEvent.write 0 0, JEvent.write 1 500]).Nodup ∧
      ((∀ i, i ∈ (jrun ⟨40, 200, 10⟩ [JEvent.write 0 0, JEvent.write 1 500]).dropped ↔
          trimWitness ⟨40, 200, 10⟩ [JEvent.write 0 0, JEvent.write 1 500] i) ∧
        (∀ i ∈ (jrun ⟨40, 200, 10⟩ [JEvent.write 0 0, JEvent.write 1 500]).dropped,
          i ∉ (jrun ⟨40, 200, 10⟩ [JEvent.write 0 0, JEvent.write 1 500]).emitted)) :=
  ⟨by decide, by decide,
    c7_jitter_drop_bound ⟨40, 200, 10⟩ [JEvent.write 0 0, JEvent.write 1 500]
      (by decide) (by decide)⟩

theorem noEnd_not_mem (evs : List JEvent) (hne : noEndB evs = true) (n : Nat) :
    JEvent.endEv n ∉ evs := by
  intro hmem
  have h := List.all_eq_true.mp hne (JEvent.endEv n) hmem
  simp at h

/-- C8: in the jitter buffer with a positive target latency, over any trace
with a monotone clock, distinct write indices and no `end()` call, a frame
written at time `t` that is never dropped, provided some tick of the armed
timer falls in the window `[t + targetLatencyMs, t + targetLatencyMs +
flushIntervalMs)` — which the running interval timer guarantees — is
emitted exactly at a tick inside that window: at or after
`t + targetLatencyMs` and before `t + targetLatencyMs + flushIntervalMs`. -/
theorem c8_jitter_latency_bound (cfg : JitterConfig) (evs : List JEvent)
    (i t : Nat) (p1 : List JEvent) (T : Nat) (q1 : List JEvent)
    (hm : timesMonoB 0 evs = true)
    (hn : (writtenIdx evs).Nodup)
    (hne : noEndB evs = true)
    (ht : 0 < cfg.targetLatencyMs)
    (hw : JEvent.write i t ∈ evs)
    (hnd : i ∉ (jrun cfg evs).dropped)
    (hsplit : evs = p1 ++ JEvent.tick T :: q1)
    (htimer : (jrun cfg p1).timer = true)
    (hT1 : t + cfg.targetLatencyMs ≤ T)
    (hT2 : T < t + cfg.targetLatencyMs + cfg.flushIntervalMs) :
    ∃ p0 T0 q0, evs = p0 ++ JEvent.tick T0 :: q0 ∧
      (jrun cfg p0).timer = true ∧
      t + cfg.targetLatencyMs ≤ T0 ∧
      T0 < t + cfg.targetLatencyMs + cfg.flushIntervalMs ∧
      i ∉ (jrun cfg p0).emitted ∧
      i ∈ (jstep cfg (jrun cfg p0) (JEvent.tick T0)).emitted := by
  subst hsplit
  obtain ⟨hm1, hm2⟩ := (timesMonoB_append 0 p1 (JEvent.tick T :: q1)).mp hm
  obtain ⟨hlastT, hq1m⟩ := (timesMonoB_cons (lastTime 0 p1) (JEvent.tick T) q1).mp hm2
  have hlastT2 : lastTime 0 p1 ≤ T := hlastT T rfl
  have hassoc : p1 ++ JEvent.tick T :: q1 = (p1 ++ [JEvent.tick T]) ++ q1 := by
    rw [List.append_assoc, List.singleton_append]
  have hrunL : jrun cfg (p1 ++ JEvent.tick T :: q1)
      = jrunFrom cfg (jrun cfg (p1 ++ [JEvent.tick T])) q1 := by
    rw [hassoc, jrun, jrunFrom_append]
    rfl
  have hLstep : jrun cfg (p1 ++ [JEvent.tick T])
      = jstep cfg (jrun cfg p1) (JEvent.tick T) := by
    rw [jrun, jrunFrom_append]
    rfl
  -- the write of frame i lies before the hypothesised tick
  have hwp : JEvent.write i t ∈ p1 := by
    rcases List.mem_append.mp hw with h | h
    · exact h
    · rcases List.mem_cons.mp h with h | h
      · exact absurd h (by simp)
      · have := time_ge_lb T q1 (JEvent.write i t) t hq1m h rfl
        omega
  -- frame i is not dropped at the prefixes either
  have hndL : i ∉ (jrun cfg (p1 ++ [JEvent.tick T])).dropped := by
    intro h
    exact hnd (by rw [hrunL]
                  exact jrunFrom_dropped_subset cfg q1 _ i h)
  have hndp : i ∉ (jrun cfg p1).dropped := by
    intro h
    refine hndL ?_
    rw [hLstep]
    obtain ⟨l2, h2⟩ := jstep_dropped_mono cfg (jrun cfg p1) (JEvent.tick T)
    rw [h2]
    exact List.mem_append_left l2 h
  -- frame i is emitted by the end of p1 ++ [tick T]
  have hA : i ∈ (jrun cfg (p1 ++ [JEvent.tick T])).emitted := by
    by_cases hE : i ∈ (jrun cfg p1).emitted
    · rw [hLstep]
      obtain ⟨l2, h2⟩ := jstep_emitted_mono cfg (jrun cfg p1) (JEvent.tick T)
      rw [h2]
      exact List.mem_append_left l2 hE
    · have hwrittenp : i ∈ writtenIdx p1 := mem_writtenIdx p1 i t hwp
      rcases jrun_written_partition cfg p1 i hwrittenp with ⟨r, hqr⟩ | hE2 | hD2
      · have hwrite_r : JEvent.write i r ∈ p1 := jrun_queue_origin cfg p1 (i, r) hqr
        have hrt : r = t :=
          writtenIdx_unique (p1 ++ JEvent.tick T :: q1) i r t hn
            (List.mem_append_left _ hwrite_r) hw
        subst hrt
        have hgood := jrunFrom_good cfg p1 0 initJitter hm1 List.Pairwise.nil
          (by intro x hx; exact absurd hx (List.not_mem_nil x))
        have hs : qSorted (jrun cfg p1).queue := hgood.1
        have hptrue : flushReady cfg.targetLatencyMs T (i, r) = true := by
          simp only [flushReady, decide_eq_true_eq]
          omega
        have hmono : ∀ a b : Nat × Nat, a.2 ≤ b.2 →
            flushReady cfg.targetLatencyMs T b = true →
            flushReady cfg.targetLatencyMs T a = true := by
          intro a b hab hb2
          simp only [flushReady, decide_eq_true_eq] at hb2 ⊢
          omega
        have htake : (i, r) ∈ (jrun cfg p1).queue.takeWhile
            (flushReady cfg.targetLatencyMs T) :=
          mem_takeWhile_mono _ hmono _ hs _ hqr hptrue
        rw [hLstep]
        rw [show jstep cfg (jrun cfg p1) (JEvent.tick T)
            = tickJ cfg T (jrun cfg p1) from rfl]
        unfold tickJ
        rw [if_pos htimer, flushJ_false]
        exact List.mem_append_right _ (List.mem_map.mpr ⟨(i, r), htake, rfl⟩)
      · exact absurd hE2 hE
      · exact absurd hD2 hndp
  -- locate the first emitting step inside p1 ++ [tick T]
  obtain ⟨p0, e0, q0, hsplit0, hnotyet, hemit⟩ :=
    first_emit cfg (p1 ++ [JEvent.tick T]) initJitter i (by simp [initJitter]) hA
  rcases jstep_emitted_new cfg (jrunFrom cfg initJitter p0) e0 i hemit hnotyet with
    ⟨T0, r, he0, htimer0, hqr0, hage0⟩ | ⟨n0, he0⟩
  · -- the emitting step is a tick at time T0
    subst he0
    have hqr0' : (i, r) ∈ (jrun cfg p0).queue := hqr0
    -- its queue entry carries the write time t
    have hwrite_r : JEvent.write i r ∈ p0 := jrun_queue_origin cfg p0 (i, r) hqr0'
    have hwrite_r_l : JEvent.write i r ∈ p1 ++ [JEvent.tick T] := by
      rw [hsplit0]
      exact List.mem_append_left _ hwrite_r
    have hwrite_r_evs : JEvent.write i r ∈ p1 ++ JEvent.tick T :: q1 := by
      rcases List.mem_append.mp hwrite_r_l with h | h
      · exact List.mem_append_left _ h
      · exact absurd h (by simp)
    have hrt : r = t :=
      writtenIdx_unique (p1 ++ JEvent.tick T :: q1) i r t hn hwrite_r_evs hw
    rw [hrt] at hage0
    -- lower bound on T0
    have hT0low : t + cfg.targetLatencyMs ≤ T0 := by omega
    -- upper bound on T0
    have hT0high : T0 ≤ T := by
      rcases List.eq_nil_or_concat q0 with hq0 | ⟨q0h, elast, hq0⟩
      · rw [hq0] at hsplit0
        obtain ⟨hp, he⟩ := List.append_inj' hsplit0.symm rfl
        have : T = T0 := by
          have h2 := List.cons_eq_cons.mp he
          injection h2.1 with h3
          omega
        omega
      · rw [List.concat_eq_append] at hq0
        rw [hq0] at hsplit0
        have hsplit1 : p1 ++ [JEvent.tick T]
            = (p0 ++ JEvent.tick T0 :: q0h) ++ [elast] := by
          rw [hsplit0, List.append_assoc, List.cons_append]
        obtain ⟨hp, _⟩ := List.append_inj' hsplit1 rfl
        have hmem : JEvent.tick T0 ∈ p1 := by
          rw [hp]
          exact List.mem_append_right _ (List.mem_cons_self _ _)
        have := time_le_lastTime 0 p1 (JEvent.tick T0) T0 hm1 hmem rfl
        omega
    refine ⟨p0, T0, q0 ++ q1, ?_, htimer0, hT0low, by omega, hnotyet, hemit⟩
    rw [hassoc, hsplit0, List.append_assoc, List.cons_append]
  · -- an end() cannot be the emitting step
    exfalso
    have hmem : e0 ∈ p1 ++ [JEvent.tick T] := by
      rw [hsplit0]
      exact List.mem_append_right _ (List.mem_cons_self _ _)
    rcases List.mem_append.mp hmem with h | h
    · rw [he0] at h
      exact noEnd_not_mem (p1 ++ JEvent.tick T :: q1) hne n0 (List.mem_append_left _ h)
    · rw [he0] at h
      simp at h

theorem c8_witness :
    timesMonoB 0 [JEvent.start, JEvent.write 0 100, JEvent.tick 140] = true ∧
      (0 : Nat) ∉ (jrun ⟨40, 200, 10⟩
        [JEvent.start, JEvent.write 0 100, JEvent.tick 140]).dropped ∧
      (∃ p0 T0 q0,
        [JEvent.start, JEvent.write 0 100, JEvent.tick 140]
            = p0 ++ JEvent.tick T0 :: q0 ∧
          (jrun ⟨40, 200, 10⟩ p0).timer = true ∧
          100 + (40 : Nat) ≤ T0 ∧ T0 < 100 + 40 + 10 ∧
          0 ∉ (jrun ⟨40, 200, 10⟩ p0).emitted ∧
          0 ∈ (jstep ⟨40, 200, 10⟩ (jrun ⟨40, 200, 10⟩ p0)
            (JEvent.tick T0)).emitted) :=
  ⟨by decide, by decide,
    c8_jitter_latency_bound ⟨40, 200, 10⟩
      [JEvent.start, JEvent.write 0 100, JEvent.tick 140] 0 100
      [JEvent.start, JEvent.write 0 100] 140 []
      (by decide) (by decide) (by decide) (by decide) (by decide) (by decide)
      rfl (by decide) (by decide) (by decide)⟩

end Spec2Proof
